import Mathlib

/-!
# Verification of the code-frontmatter header engine

Shallow embedding of the core of the `code-frontmatter` repository:
the comment-region locator (`src/parser.ts`), the export-drift validator
(`src/analyzer/validator.ts`), the CommonJS assignment rule of the export
extractor (`src/analyzer/extractor.ts`), the header writer
(`src/tools/write.ts`, mirrored in `src/index.ts`) and the directory scan
summary (`src/tools/read.ts`).

Host strings are modelled as `List Char`.  JavaScript string methods used
by the source (`trimStart`, `trim`, `indexOf`, `startsWith`, `slice`,
`split`, `join`, `replace` for newline normalisation) are given explicit
definitions below, and each TypeScript function is translated clause by
clause.
-/

namespace CodeFrontmatter

abbrev Str := List Char

/-- The ASCII whitespace characters recognised by the JavaScript
`trimStart`/`trim` methods (the source only ever meets ASCII whitespace). -/
def isJsWs (c : Char) : Bool :=
  c = ' ' || c = '\t' || c = '\n' || c = '\r' || c = '\x0b' || c = '\x0c'

/-- JavaScript `s.trimStart()`. -/
def jsTrimStart (s : Str) : Str := s.dropWhile isJsWs

/-- JavaScript `s.trimEnd()`. -/
def jsTrimEnd (s : Str) : Str := (s.reverse.dropWhile isJsWs).reverse

/-- JavaScript `s.trim()` (both ends). -/
def jsTrim (s : Str) : Str := jsTrimEnd (jsTrimStart s)

/-- JavaScript `text.indexOf(pattern)`, as an `Option Nat`
(`none` models `-1`).  The empty pattern is found at index 0,
as in JavaScript. -/
def indexOfSub (p : Str) : Str → Option Nat
  | [] => if p.isPrefixOf [] then some 0 else none
  | c :: rest =>
    if p.isPrefixOf (c :: rest) then some 0
    else (indexOfSub p rest).map (· + 1)

/-- First pass of the newline normalisation
`content.replace(/\r\n/g, "\n")`. -/
def replaceCRLF : Str → Str
  | '\r' :: '\n' :: rest => '\n' :: replaceCRLF rest
  | c :: rest => c :: replaceCRLF rest
  | [] => []

/-- Model of `content.replace(/\r\n/g, "\n").replace(/\r/g, "\n")` from
`parser.ts` line 136 and `write.ts` line 516. -/
def normalizeNewlines (s : Str) : Str :=
  (replaceCRLF s).map (fun c => if c = '\r' then '\n' else c)

/-! ## Comment-region locator (`src/parser.ts`, `extractHeaderContent`) -/

/-- One step of the per-line prefix stripping in `extractHeaderContent`
(`parser.ts` lines 171–182):

```js
const trimmedLine = line.trimStart();
if (trimmedLine.startsWith(linePrefix)) {
    return trimmedLine.slice(linePrefix.length);
}
const trimmedPrefix = linePrefix.trim();
if (trimmedPrefix && trimmedLine.startsWith(trimmedPrefix)) {
    return trimmedLine.slice(trimmedPrefix.length);
}
return line;
```
-/
def stripLine (linePrefix line : Str) : Str :=
  let trimmedLine := jsTrimStart line
  if linePrefix.isPrefixOf trimmedLine then
    trimmedLine.drop linePrefix.length
  else
    let trimmedPrefix := jsTrim linePrefix
    if trimmedPrefix ≠ [] ∧ trimmedPrefix.isPrefixOf trimmedLine then
      trimmedLine.drop trimmedPrefix.length
    else line

/-- Model of `rawContent.split("\n").map(stripLine).join("\n")`
(`parser.ts` lines 169–183). -/
def applyLinePrefix (linePrefix raw : Str) : Str :=
  List.intercalate ['\n'] ((raw.splitOn '\n').map (stripLine linePrefix))

/-- Optional per-line prefix processing (`parser.ts` lines 168–184). -/
def stripRegion (linePrefix : Option Str) (raw : Str) : Str :=
  match linePrefix with
  | some p => applyLinePrefix p raw
  | none => raw

/-- Shebang removal in `extractHeaderContent` (`parser.ts` lines 139–147):
if the normalised text starts with `#!`, drop up to and including the
first newline; a file that is only a shebang becomes empty. -/
def locAfterShebang (s : Str) : Str :=
  if ("#!".data).isPrefixOf s then
    match indexOfSub ['\n'] s with
    | some i => s.drop (i + 1)
    | none => []
  else s

/-- Model of `extractHeaderContent(content, commentStart, commentEnd, linePrefix)`
from `parser.ts` lines 129–188, returning the cleaned header text or
`none`. -/
def extractHeaderContent (content cs ce : Str) (linePrefix : Option Str) :
    Option Str :=
  let trimmedContent := jsTrimStart (locAfterShebang (normalizeNewlines content))
  if cs.isPrefixOf trimmedContent then
    let afterStart := trimmedContent.drop cs.length
    match indexOfSub ce afterStart with
    | some endIndex =>
      let rawContent := afterStart.take endIndex
      let cleaned := jsTrim (stripRegion linePrefix rawContent)
      if cleaned.length > 0 then some cleaned else none
    | none => none
  else none

/-! ## Parsed YAML values and `extractFrontmatter` (`src/parser.ts`) -/

/-- Shallow model of the values the external YAML parser can return.
`ymap` is a keyed mapping (assoc list in document order). -/
inductive Yaml where
  | ynull : Yaml
  | ybool : Bool → Yaml
  | ynum : Int → Yaml
  | ystr : Str → Yaml
  | ylist : List Yaml → Yaml
  | ymap : List (Str × Yaml) → Yaml

/-- JavaScript truthiness of a parsed YAML value (`!parsed`):
`null`, `false`, `0` and `""` are falsy; arrays and objects are always
truthy. -/
def jsTruthy : Yaml → Bool
  | .ynull => false
  | .ybool b => b
  | .ynum n => n ≠ 0
  | .ystr s => s ≠ []
  | .ylist _ => true
  | .ymap _ => true

/-- JavaScript `typeof parsed === "object"`: true for objects and arrays
(and `null`, which the source filters out first via truthiness). -/
def typeofIsObject : Yaml → Bool
  | .ynull => true
  | .ylist _ => true
  | .ymap _ => true
  | _ => false

/-- JavaScript property access `v.key` on a parsed value: only keyed
mappings yield a value; on anything else the named properties used by the
source (`intent`, `role`, `exports`) are `undefined`, modelled `none`. -/
def jsGetProp (v : Yaml) (key : Str) : Option Yaml :=
  match v with
  | .ymap m => (m.find? (fun e => decide (e.1 = key))).map (·.2)
  | _ => none

/-- Truthiness of `v.key` (`!parsed.intent` etc.): `undefined` is falsy. -/
def jsPropTruthy (v : Yaml) (key : Str) : Bool :=
  match jsGetProp v key with
  | some w => jsTruthy w
  | none => false

/-- Model of `CfmSchemaLoose.safeParse(parsed).success` (`schema.ts`): an object
whose `intent` key is present and is a string; everything else passes
through. -/
def looseSchemaOk : Yaml → Bool
  | .ymap m =>
    match (m.find? (fun e => decide (e.1 = ("intent").data))).map (·.2) with
    | some (Yaml.ystr _) => true
    | _ => false
  | _ => false

/-- The warning strings `extractFrontmatter` can attach, keyed by the
message templates in `parser.ts` (the dynamic part of a message is kept as
a payload). -/
inductive Warning where
  /-- "未注册的文件类型，跳过表头提取" -/
  | unregisteredType : Warning
  /-- "YAML 解析失败: …" -/
  | yamlParseFailed : Str → Warning
  /-- "表头内容不是有效的 YAML 对象" -/
  | notYamlObject : Warning
  /-- "Schema 校验警告: …" -/
  | schemaLooseWarning : Warning
  /-- "缺少必选字段: intent" -/
  | missingIntent : Warning
  /-- "缺少推荐字段: role" -/
  | missingRole : Warning
  /-- "缺少推荐字段: exports" -/
  | missingExports : Warning
  /-- "文件读取失败: …" -/
  | fileReadFailed : Str → Warning
deriving DecidableEq

/-- A delimiter rule (`LanguageRuleSchema` in `schema.ts`). -/
structure LanguageRule where
  comment_start : Str
  comment_end : Str
  line_prefix : Option Str
deriving DecidableEq

/-- A registry entry as returned by `getLanguageByExtension`. -/
structure Language where
  name : Str
  rule : LanguageRule
deriving DecidableEq

/-- A scan entry (`CfmEntry` in `schema.ts`).  `warnings = []` models the
`undefined` warnings field. -/
structure CfmEntry where
  file : Str
  language : Option Str
  frontmatter : Option Yaml
  warnings : List Warning

/-- Model of `MAX_READ_BYTES` (`parser.ts` lines 17–18): only the head of
the file is read when looking for a header. -/
def MAX_READ_BYTES : Nat := 4096

/-- Model of `readFileHead(filePath, maxBytes)` (`parser.ts` lines
194–207): the text decoded from the first `MAX_READ_BYTES` bytes of the
file.  Bytes are modelled as characters, which is exact for the ASCII
texts in scope here. -/
def readFileHead (fileContent : Str) : Str := fileContent.take MAX_READ_BYTES

/-- Model of `extractFrontmatter(filePath, relativePath)` from `parser.ts` lines
33–123, with its external collaborators made explicit: `lang` is the
registry lookup result for the file's extension, `content` is the text
the read stage produced — in the source always
`readFileHead(filePath, MAX_READ_BYTES)`, i.e. only the first 4096 bytes
of the file — and `parseYaml` is the external YAML parser (exceptions
modelled as `Except.error`). -/
def extractFrontmatter (lang : Option Language) (content : Str)
    (parseYaml : Str → Except Str Yaml) (relativePath : Str) : CfmEntry :=
  match lang with
  | none =>
    { file := relativePath, language := none, frontmatter := none,
      warnings := [.unregisteredType] }
  | some lang =>
    match extractHeaderContent content lang.rule.comment_start
        lang.rule.comment_end lang.rule.line_prefix with
    | none =>
      { file := relativePath, language := some lang.name,
        frontmatter := none, warnings := [] }
    | some headerContent =>
      match parseYaml headerContent with
      | .error msg =>
        { file := relativePath, language := some lang.name,
          frontmatter := none, warnings := [.yamlParseFailed msg] }
      | .ok parsed =>
        if ¬ jsTruthy parsed ∨ ¬ typeofIsObject parsed then
          { file := relativePath, language := some lang.name,
            frontmatter := none, warnings := [.notYamlObject] }
        else
          let w1 : List Warning :=
            if looseSchemaOk parsed then [] else [.schemaLooseWarning]
          let w2 : List Warning :=
            if jsPropTruthy parsed ("intent").data then [] else [.missingIntent]
          let w3 : List Warning :=
            if jsPropTruthy parsed ("role").data then [] else [.missingRole]
          let w4 : List Warning :=
            if jsPropTruthy parsed ("exports").data then [] else [.missingExports]
          { file := relativePath, language := some lang.name,
            frontmatter := some parsed, warnings := w1 ++ w2 ++ w3 ++ w4 }

/-! ## Export-drift validator (`src/analyzer/validator.ts`) -/

structure ValidationResult where
  file : Str
  hasFrontmatter : Bool
  isValid : Bool
  missing : List Str
  stale : List Str
  errors : List Str
deriving DecidableEq

/-- The extension gate in `validator.ts` line 56: static export extraction
only runs for the JS/TS family. -/
def isJsTsFile (filePath : Str) : Bool :=
  (".ts".data).isSuffixOf filePath || (".js".data).isSuffixOf filePath ||
  (".tsx".data).isSuffixOf filePath || (".jsx".data).isSuffixOf filePath ||
  (".mjs".data).isSuffixOf filePath || (".cjs".data).isSuffixOf filePath

/-- Model of `e.split(":")[0].trim()` (`validator.ts` line 50): the text before the
first colon — the whole entry when there is no colon — always trimmed. -/
def cfmDeclaredName (e : Str) : Str :=
  jsTrim (match indexOfSub [':'] e with
          | some i => e.take i
          | none => e)

/-- Model of `exportsList.map((e) => e.split(":")[0].trim())`: JavaScript `map`
applies the callback in order and a non-string element makes `e.split`
throw a `TypeError`. -/
def mapDeclaredNames : List Yaml → Except Str (List Str)
  | [] => .ok []
  | .ystr s :: rest => (mapDeclaredNames rest).map (cfmDeclaredName s :: ·)
  | _ :: _ => .error ("TypeError: e.split is not a function").data

/-- Model of `const exportsList = (frontmatter?.exports as string[]) || [];`
followed by the `map` above (`validator.ts` lines 45–52), with JavaScript
semantics: a missing or falsy `exports` field becomes `[]`; a truthy
non-array value has no `.map` and throws. -/
def cfmExportNames (frontmatter : Option Yaml) : Except Str (List Str) :=
  let v : Option Yaml :=
    match frontmatter with
    | some fm => jsGetProp fm ("exports").data
    | none => none
  match v with
  | none => .ok []
  | some w =>
    if ¬ jsTruthy w then .ok []
    else
      match w with
      | .ylist items => mapDeclaredNames items
      | _ => .error ("TypeError: exportsList.map is not a function").data

/-- Model of `validateFrontmatter(filePath)` from `validator.ts` lines 18–105.
Its collaborators are explicit: `cfm` is the entry `extractFrontmatter`
resolved to, and `codeExports` is the outcome of `extractExports`
(`Except.error` models a thrown exception, caught at line 99).

The guard `if (!cfm)` at line 32 can never fire: `extractFrontmatter`
always resolves to an entry object, and an object is truthy in
JavaScript.  The model therefore proceeds to line 40, which sets
`hasFrontmatter = true` unconditionally.  All exceptions (the `map` over
an ill-typed `exports` field, or `extractExports` itself) are thrown
before anything is pushed onto `missing`/`stale`, so the catch block
yields empty diff lists and the single error message. -/
def validateFrontmatter (filePath : Str) (cfm : CfmEntry)
    (codeExports : Except Str (List Str)) : ValidationResult :=
  match cfmExportNames cfm.frontmatter with
  | .error msg =>
    { file := filePath, hasFrontmatter := true, isValid := false,
      missing := [], stale := [], errors := [msg] }
  | .ok cfmExports =>
    if isJsTsFile filePath then
      match codeExports with
      | .error msg =>
        { file := filePath, hasFrontmatter := true, isValid := false,
          missing := [], stale := [], errors := [msg] }
      | .ok code =>
        let missing := code.filter (fun e => decide (e ∉ cfmExports))
        let stale := cfmExports.filter (fun e => decide (e ∉ code))
        { file := filePath, hasFrontmatter := true,
          isValid := missing.isEmpty && stale.isEmpty,
          missing := missing, stale := stale, errors := [] }
    else
      { file := filePath, hasFrontmatter := true, isValid := true,
        missing := [], stale := [], errors := [] }

/-! ## CommonJS assignment rule of the export extractor
(`src/analyzer/extractor.ts` lines 98–116) -/

mutual
/-- A fragment of the TypeScript syntax tree, just rich enough for the
assignment rule: identifiers, property accesses `base.prop`, assignment
expressions (a binary expression whose operator token is `=`), and every
other node kind collapsed to `otherNode` with its child list
(`ts.forEachChild` recurses into children uniformly). -/
inductive TsNode : Type where
  | identE : Str → TsNode
  | propAccessE : TsNode → Str → TsNode
  | assignE : TsNode → TsNode → TsNode
  | otherNode : TsNodeList → TsNode

inductive TsNodeList : Type where
  | nil : TsNodeList
  | cons : TsNode → TsNodeList → TsNodeList
end

/-- The names rule 4 of `extractExports` adds when visiting an assignment
whose left-hand side is `lhs` (`extractor.ts` lines 102–114): the two
`if`s on a property access run in sequence, then the bare-identifier
check. -/
def ruleFiveContrib (lhs : TsNode) : List Str :=
  match lhs with
  | .propAccessE (.identE base) prop =>
    (if base = ("module").data ∧ prop = ("exports").data
     then [("module.exports").data] else []) ++
    (if base = ("exports").data then [prop] else [])
  | .identE name =>
    if name = ("exports").data then [("module.exports").data] else []
  | _ => []

mutual
/-- The visitor of `extractExports` restricted to the CommonJS assignment
rule: contributions of the node itself, then `ts.forEachChild`
recursion.  (The declaration/export-clause rules of the extractor act on
node kinds collapsed into `otherNode` here and contribute via different
rules, outside this model's scope.) -/
def collectAssignExports : TsNode → List Str
  | .identE _ => []
  | .propAccessE base _ => collectAssignExports base
  | .assignE lhs rhs =>
    ruleFiveContrib lhs ++ collectAssignExports lhs ++ collectAssignExports rhs
  | .otherNode children => collectAssignList children

def collectAssignList : TsNodeList → List Str
  | .nil => []
  | .cons h t => collectAssignExports h ++ collectAssignList t
end

mutual
/-- Occurrence of `m` somewhere in the tree rooted at the second argument. -/
inductive SubNode : TsNode → TsNode → Prop where
  | refl (n : TsNode) : SubNode n n
  | propBase {m b : TsNode} {p : Str} :
      SubNode m b → SubNode m (.propAccessE b p)
  | assignL {m l r : TsNode} : SubNode m l → SubNode m (.assignE l r)
  | assignR {m l r : TsNode} : SubNode m r → SubNode m (.assignE l r)
  | inChildren {m : TsNode} {cs : TsNodeList} :
      SubNodeL m cs → SubNode m (.otherNode cs)

inductive SubNodeL : TsNode → TsNodeList → Prop where
  | head {m h : TsNode} {t : TsNodeList} : SubNode m h → SubNodeL m (.cons h t)
  | tail {m h : TsNode} {t : TsNodeList} : SubNodeL m t → SubNodeL m (.cons h t)
end

/-! ## Header writer (`src/tools/write.ts`, mirrored in `src/index.ts`) -/

/-- Model of `afterOldHeader.replace(/^\n{0,2}/, "\n")` (`write.ts` line 572):
the run of up to two newlines after the old end marker, replaced by
exactly one.  This is the part after the inserted `'\n'`. -/
def dropUpTo2NL : Str → Str
  | '\n' :: '\n' :: rest => rest
  | '\n' :: rest => rest
  | l => l

/-- The shebang split of `replaceOrInsertHeader` (`write.ts` lines
549–559): unlike the locator's, a shebang with no terminating newline is
left in `restContent`. -/
def splitShebang (trimmed : Str) : Str × Str :=
  if ("#!".data).isPrefixOf trimmed then
    match indexOfSub ['\n'] trimmed with
    | some i => (trimmed.take (i + 1), trimmed.drop (i + 1))
    | none => ([], trimmed)
  else ([], trimmed)

/-- Model of `replaceOrInsertHeader(content, commentStart, commentEnd, newHeader)`
from `write.ts` lines 540–579.  Note the leading whitespace of `content`
is computed at line 547 but never re-attached to the result. -/
def replaceOrInsertHeader (content cs ce newHeader : Str) : Str :=
  let trimmed := jsTrimStart content
  let p := splitShebang trimmed
  let shebangLine := p.1
  let restContent := p.2
  let restTrimmed := jsTrimStart restContent
  if cs.isPrefixOf restTrimmed then
    match indexOfSub ce (restTrimmed.drop cs.length) with
    | some endIdx =>
      let afterOldHeader := (restTrimmed.drop cs.length).drop (endIdx + ce.length)
      shebangLine ++ newHeader ++ ('\n' :: dropUpTo2NL afterOldHeader)
    | none => shebangLine ++ newHeader ++ ('\n' :: '\n' :: restContent)
  else shebangLine ++ newHeader ++ ('\n' :: '\n' :: restContent)

/-- The input of `writeFrontmatter` (`CfmWriteInput` in `write.ts`):
it has no `cfm_version` field. -/
structure CfmWriteInput where
  intent : Str
  role : Str
  exports : List Str
  depends_on : Option (List Str) := none
  when_to_load : Option Str := none
  mutates_state : Option Bool := none
  side_effects : Option (List Str) := none
  domain : Option Str := none
  ai_notes : Option Str := none

/-- One optional-array field of `orderedData`: written only when present
and non-empty (`if (data.x && data.x.length > 0)` in `write.ts`). -/
def optArrayEntry (key : Str) (v : Option (List Str)) : List (Str × Yaml) :=
  match v with
  | some l => if l.length > 0 then [(key, .ylist (l.map .ystr))] else []
  | none => []

/-- One optional-string field of `orderedData`: written only when truthy
(`if (data.x)` in `write.ts`, so a present empty string is dropped). -/
def optTruthyStrEntry (key : Str) (v : Option Str) : List (Str × Yaml) :=
  match v with
  | some s => if s ≠ [] then [(key, .ystr s)] else []
  | none => []

/-- The `mutates_state` field of `orderedData`: written whenever not
`undefined` (`if (data.mutates_state !== undefined)`). -/
def optBoolEntry (key : Str) (v : Option Bool) : List (Str × Yaml) :=
  match v with
  | some b => [(key, .ybool b)]
  | none => []

/-- The `orderedData` object built by `writeFrontmatter` (`write.ts`
lines 479–488): required fields always, `depends_on`/`side_effects` only
when present and non-empty, `when_to_load`/`domain`/`ai_notes` only when
truthy, `mutates_state` whenever not `undefined`. -/
def orderedData (d : CfmWriteInput) : List (Str × Yaml) :=
  [(("intent").data, .ystr d.intent),
   (("role").data, .ystr d.role),
   (("exports").data, .ylist (d.exports.map .ystr))] ++
  optArrayEntry (("depends_on").data) d.depends_on ++
  optTruthyStrEntry (("when_to_load").data) d.when_to_load ++
  optBoolEntry (("mutates_state").data) d.mutates_state ++
  optArrayEntry (("side_effects").data) d.side_effects ++
  optTruthyStrEntry (("domain").data) d.domain ++
  optTruthyStrEntry (("ai_notes").data) d.ai_notes

/-- One present optional-array field of the spec-side full mapping. -/
def presentArrayEntry (key : Str) (v : Option (List Str)) : List (Str × Yaml) :=
  match v with
  | some l => [(key, .ylist (l.map .ystr))]
  | none => []

/-- One present optional-string field of the spec-side full mapping. -/
def presentStrEntry (key : Str) (v : Option Str) : List (Str × Yaml) :=
  match v with
  | some s => [(key, .ystr s)]
  | none => []

/-- Modelled from the spec: the field-for-field mapping representation of
a Header Document (spec §3 and claim C2's "equal field-for-field") —
every field carried by the document appears, including empty optional
arrays and empty optional strings. -/
def docToFullMap (d : CfmWriteInput) : List (Str × Yaml) :=
  [(("intent").data, .ystr d.intent),
   (("role").data, .ystr d.role),
   (("exports").data, .ylist (d.exports.map .ystr))] ++
  presentArrayEntry (("depends_on").data) d.depends_on ++
  presentStrEntry (("when_to_load").data) d.when_to_load ++
  optBoolEntry (("mutates_state").data) d.mutates_state ++
  presentArrayEntry (("side_effects").data) d.side_effects ++
  presentStrEntry (("domain").data) d.domain ++
  presentStrEntry (("ai_notes").data) d.ai_notes

/-- The comment block built by `writeFrontmatter` (`write.ts` lines
493–502): block style for `line_prefix = null`, otherwise every
non-empty YAML line gets the prefix and empty lines become the trimmed
prefix. -/
def buildHeader (rule : LanguageRule) (yamlStr : Str) : Str :=
  match rule.line_prefix with
  | some p =>
    let prefixedLines :=
      (yamlStr.splitOn '\n').map
        (fun line => if line ≠ [] then p ++ line else jsTrim p)
    rule.comment_start ++ '\n' ::
      (List.intercalate ['\n'] prefixedLines ++ '\n' :: rule.comment_end)
  | none =>
    rule.comment_start ++ '\n' :: (yamlStr ++ '\n' :: rule.comment_end)

/-- The pure core of `writeFrontmatter` (`write.ts` lines 461–535) —
registry lookup and file I/O stripped, the external YAML serializer
passed in: build the YAML text, wrap it in the language's comment block,
normalise the file's newlines and replace or insert the header. -/
def writeFrontmatterContent (rule : LanguageRule) (d : CfmWriteInput)
    (stringifyYaml : List (Str × Yaml) → Str) (content : Str) : Str :=
  let yamlStr := jsTrim (stringifyYaml (orderedData d))
  let header := buildHeader rule yamlStr
  replaceOrInsertHeader (normalizeNewlines content)
    rule.comment_start rule.comment_end header

/-! ## Directory scan summary (`src/tools/read.ts`, `scanDirectory`) -/

structure ScanResult where
  total_files : Nat
  files_with_cfm : Nat
  files_without_cfm : Nat
  entries : List CfmEntry

/-- The summary step of `scanDirectory` (`read.ts` lines 199–229): the
walk produced `entries`; the counters are computed over all of them and
only the returned `entries` list is filtered when `cfmOnly` is set. -/
def scanDirectory (entries : List CfmEntry) (cfmOnly : Bool) : ScanResult :=
  let filteredEntries :=
    if cfmOnly then entries.filter (fun e => e.frontmatter.isSome) else entries
  { total_files := entries.length,
    files_with_cfm := (entries.filter (fun e => e.frontmatter.isSome)).length,
    files_without_cfm := (entries.filter (fun e => e.frontmatter.isNone)).length,
    entries := filteredEntries }

/-! ## Spec-side comparison definitions

The two definitions below transcribe the claim/spec wording (not the
source) and exist only to be compared with the corresponding source
definitions. -/

/-- Modelled from the spec words of claim C8: strip the prefix if the
trimmed line starts with it exactly; else try the prefix *with trailing
whitespace removed*; else leave the line unmodified.  To be compared with
`stripLine`, whose fallback is `linePrefix.trim()` (both ends, and only
when non-empty). -/
def stripLineSpec (linePrefix line : Str) : Str :=
  let trimmedLine := jsTrimStart line
  if linePrefix.isPrefixOf trimmedLine then
    trimmedLine.drop linePrefix.length
  else
    let shortened := jsTrimEnd linePrefix
    if shortened.isPrefixOf trimmedLine then
      trimmedLine.drop shortened.length
    else line

/-- Modelled from the spec words of claim C3: split on the first colon
and take the trimmed text before it; *an entry with no colon is used
verbatim* as the name.  To be compared with `cfmDeclaredName`, which
trims in the no-colon case too. -/
def cfmDeclaredNameSpec (e : Str) : Str :=
  match indexOfSub [':'] e with
  | some i => jsTrim (e.take i)
  | none => e

/-! ## A concrete block-style serializer/parser pair

These two functions stand in for the external `yaml` package in witnesses
and counterexamples.  They produce and read the block style the `yaml`
package emits for the simple documents used there (plain scalars, string
lists, `[]` for an empty list). -/

/-- Plain scalar rendering used by `miniStringify`. -/
def miniScalar : Yaml → Str
  | .ystr s => s
  | .ybool true => ("true").data
  | .ybool false => ("false").data
  | .ynum n => (toString n).data
  | _ => []

/-- Lines for one `key: value` entry in block style. -/
def miniStringifyEntry : (Str × Yaml) → List Str
  | (k, .ylist []) => [k ++ (": []").data]
  | (k, .ylist items) =>
    (k ++ [':']) :: items.map (fun it => ("  - ").data ++ miniScalar it)
  | (k, v) => [k ++ (": ").data ++ miniScalar v]

/-- Block-style serialization of a mapping, with the trailing newline the
`yaml` package emits (the writer trims it away). -/
def miniStringify (m : List (Str × Yaml)) : Str :=
  List.intercalate ['\n'] (m.map miniStringifyEntry).flatten ++ ['\n']

/-- Scalar parsing used by `miniParse`. -/
def miniParseVal (s : Str) : Yaml :=
  if s = ("[]").data then .ylist []
  else if s = ("true").data then .ybool true
  else if s = ("false").data then .ybool false
  else .ystr s

/-- Line-oriented parser for the block style of `miniStringify`: a right
fold that carries the contiguous `  - ` item lines below the current
position, attaching them to the key line that introduces the list. -/
def miniParseGo : List Str → Option (List (Str × Yaml) × List Str)
  | [] => some ([], [])
  | line :: rest =>
    match miniParseGo rest with
    | none => none
    | some (m, pending) =>
      if (("  - ").data).isPrefixOf line then
        some (m, line.drop 4 :: pending)
      else
        match indexOfSub [':'] line with
        | none => none
        | some i =>
          let k := line.take i
          let v := line.drop (i + 1)
          if v = [] then
            some ((k, .ylist (pending.map miniParseVal)) :: m, [])
          else if v.head? = some ' ' ∧ pending = [] then
            some ((k, miniParseVal (v.drop 1)) :: m, [])
          else none

/-- Parser counterpart of `miniStringify`: a failure is a typed error, as
the `yaml` package's thrown `YAMLParseError` is modelled. -/
def miniParse (s : Str) : Except Str Yaml :=
  match miniParseGo ((jsTrim s).splitOn '\n') with
  | some (m, []) => .ok (.ymap m)
  | _ => .error ("YAMLParseError").data

/-! ## Toolkit lemmas about the string primitives -/

theorem indexOfSub_eq_some_iff {p : Str} :
    ∀ {t : Str} {n : Nat},
      indexOfSub p t = some n ↔
        p.isPrefixOf (List.drop n t) ∧
          ∀ k, k < n → ¬ p.isPrefixOf (List.drop k t) := by
  intro t
  induction t with
  | nil =>
    intro n
    simp only [List.drop_nil]
    show (if p.isPrefixOf ([] : Str) then some 0 else none) = some n ↔ _
    by_cases hp : p.isPrefixOf ([] : Str)
    · rw [if_pos hp]
      constructor
      · intro h
        injection h with h
        subst h
        exact ⟨hp, fun k hk => absurd hk (Nat.not_lt_zero k)⟩
      · rintro ⟨_, h2⟩
        rcases Nat.eq_zero_or_pos n with rfl | hn
        · rfl
        · exact absurd hp (h2 0 hn)
    · rw [if_neg hp]
      constructor
      · intro h
        cases h
      · rintro ⟨h1, _⟩
        exact absurd h1 hp
  | cons c rest ih =>
    intro n
    simp only [indexOfSub]
    by_cases hp : p.isPrefixOf (c :: rest)
    · simp only [hp, if_true]
      constructor
      · intro h
        injection h with h
        subst h
        exact ⟨hp, fun k hk => absurd hk (Nat.not_lt_zero k)⟩
      · rintro ⟨h1, h2⟩
        cases n with
        | zero => rfl
        | succ m => exact absurd hp (by simpa using h2 0 (Nat.succ_pos m))
    · simp only [hp, if_false]
      cases n with
      | zero =>
        simp only [List.drop_zero]
        constructor
        · intro h
          rcases Option.map_eq_some'.mp h with ⟨a, _, ha⟩
          omega
        · rintro ⟨h1, _⟩
          exact absurd h1 hp
      | succ m =>
        have hdrop : List.drop (m + 1) (c :: rest) = List.drop m rest := rfl
        rw [hdrop]
        constructor
        · intro h
          rcases Option.map_eq_some'.mp h with ⟨a, ha, hna⟩
          have ham : a = m := by omega
          subst ham
          rcases (ih (n := a)).mp ha with ⟨g1, g2⟩
          refine ⟨g1, ?_⟩
          intro k hk
          cases k with
          | zero => simpa using hp
          | succ j =>
            have : List.drop (j + 1) (c :: rest) = List.drop j rest := rfl
            rw [this]
            exact g2 j (by omega)
        · rintro ⟨h1, h2⟩
          have hrest : indexOfSub p rest = some m := by
            refine (ih (n := m)).mpr ⟨h1, ?_⟩
            intro j hj
            have : List.drop j rest = List.drop (j + 1) (c :: rest) := rfl
            rw [this]
            exact h2 (j + 1) (by omega)
          rw [hrest]
          rfl

theorem indexOfSub_eq_none_iff {p t : Str} :
    indexOfSub p t = none ↔ ∀ k, ¬ p.isPrefixOf (List.drop k t) := by
  constructor
  · intro h k
    intro hk
    induction t generalizing k with
    | nil =>
      have h0 : List.drop k ([] : Str) = [] := List.drop_nil
      rw [h0] at hk
      simp [indexOfSub, hk] at h
    | cons c rest ih =>
      simp only [indexOfSub] at h
      by_cases hp : p.isPrefixOf (c :: rest)
      · simp [hp] at h
      · rw [if_neg hp] at h
        have h2 := Option.map_eq_none'.mp h
        cases k with
        | zero => exact hp (by simpa using hk)
        | succ j =>
          have : List.drop (j + 1) (c :: rest) = List.drop j rest := rfl
          rw [this] at hk
          exact ih h2 j hk
  · intro h
    cases ho : indexOfSub p t with
    | none => rfl
    | some n =>
      have := (indexOfSub_eq_some_iff.mp ho).1
      exact absurd this (h n)

theorem dropWhile_head_false {p : Char → Bool} :
    ∀ {l c t}, List.dropWhile p l = c :: t → p c = false := by
  intro l
  induction l with
  | nil => intro c t h; simp at h
  | cons a rest ih =>
    intro c t h
    by_cases ha : p a
    · rw [List.dropWhile_cons, if_pos ha] at h
      exact ih h
    · rw [List.dropWhile_cons, if_neg ha] at h
      cases h
      exact Bool.of_not_eq_true ha

theorem jsTrimStart_idem (l : Str) : jsTrimStart (jsTrimStart l) = jsTrimStart l := by
  unfold jsTrimStart
  cases h : List.dropWhile isJsWs l with
  | nil => simp
  | cons c t =>
    have hc := dropWhile_head_false h
    simp [List.dropWhile_cons, hc]

theorem jsTrimStart_cons_ws {c : Char} (hc : isJsWs c = true) (l : Str) :
    jsTrimStart (c :: l) = jsTrimStart l := by
  unfold jsTrimStart
  simp [List.dropWhile_cons, hc]

theorem jsTrimStart_cons_not_ws {c : Char} (hc : isJsWs c = false) (l : Str) :
    jsTrimStart (c :: l) = c :: l := by
  unfold jsTrimStart
  simp [List.dropWhile_cons, hc]

theorem jsTrimEnd_prefix_self (l : Str) : jsTrimEnd l <+: l := by
  unfold jsTrimEnd
  refine List.reverse_suffix.mp ?_
  rw [List.reverse_reverse]
  exact List.dropWhile_suffix _

theorem jsTrimStart_eq_self_of_prefix {l m : Str}
    (hl : jsTrimStart l = l) (hm : m <+: l) : jsTrimStart m = m := by
  cases m with
  | nil => rfl
  | cons c t =>
    rcases hm with ⟨u, hu⟩
    subst hu
    cases hc : isJsWs c with
    | false => exact jsTrimStart_cons_not_ws hc t
    | true =>
      exfalso
      rw [show (c :: t) ++ u = c :: (t ++ u) from rfl] at hl
      rw [jsTrimStart_cons_ws hc] at hl
      have hle : (jsTrimStart (t ++ u)).length ≤ (t ++ u).length := by
        unfold jsTrimStart
        exact (List.dropWhile_sublist _).length_le
      have hlen := congrArg List.length hl
      rw [List.length_cons] at hlen
      omega

theorem jsTrimEnd_idem (l : Str) : jsTrimEnd (jsTrimEnd l) = jsTrimEnd l := by
  unfold jsTrimEnd
  rw [List.reverse_reverse]
  cases h : List.dropWhile isJsWs l.reverse with
  | nil => simp
  | cons c t =>
    have hc := dropWhile_head_false h
    simp [List.dropWhile_cons, hc]

theorem jsTrim_idem (l : Str) : jsTrim (jsTrim l) = jsTrim l := by
  unfold jsTrim
  have h1 : jsTrimStart (jsTrimEnd (jsTrimStart l)) = jsTrimEnd (jsTrimStart l) :=
    jsTrimStart_eq_self_of_prefix (jsTrimStart_idem l) (jsTrimEnd_prefix_self _)
  rw [h1, jsTrimEnd_idem]

theorem jsTrim_fix_trimStart {s : Str} (h : jsTrim s = s) : jsTrimStart s = s := by
  conv_lhs => rw [← h]
  rw [show jsTrim s = jsTrimEnd (jsTrimStart s) from rfl]
  have := jsTrimStart_eq_self_of_prefix (jsTrimStart_idem s) (jsTrimEnd_prefix_self (jsTrimStart s))
  rw [this, ← show jsTrim s = jsTrimEnd (jsTrimStart s) from rfl, h]

theorem jsTrim_fix_trimEnd {s : Str} (h : jsTrim s = s) : jsTrimEnd s = s := by
  conv_lhs => rw [← h]
  rw [show jsTrim s = jsTrimEnd (jsTrimStart s) from rfl, jsTrimEnd_idem,
    ← show jsTrim s = jsTrimEnd (jsTrimStart s) from rfl, h]

theorem length_filter_partition {α : Type} (p : α → Bool) (l : List α) :
    (l.filter p).length + (l.filter (fun a => !p a)).length = l.length := by
  induction l with
  | nil => rfl
  | cons a t ih =>
    cases h : p a <;> simp [List.filter_cons, h] <;> omega

theorem mapDeclaredNames_map_ystr (l : List Str) :
    mapDeclaredNames (l.map .ystr) = .ok (l.map cfmDeclaredName) := by
  induction l with
  | nil => rfl
  | cons a t ih =>
    show (mapDeclaredNames (t.map .ystr)).map (cfmDeclaredName a :: ·) = _
    rw [ih]
    rfl

/-! ## Claim theorems -/

/-- Claim C10: every `ScanResult` returned by `scanDirectory` satisfies
`total_files = files_with_cfm + files_without_cfm`; the three counters are
computed over all scanned entries regardless of the `cfmOnly` option;
with `cfmOnly = false` the `entries` list is the full scan (so it has
length `total_files`), and with `cfmOnly = true` it is exactly the
sublist of entries whose frontmatter is non-null, of length
`files_with_cfm`, while the counters are unchanged. -/
theorem claim_scan_counters (entries : List CfmEntry) (cfmOnly : Bool) :
    (scanDirectory entries cfmOnly).total_files =
        (scanDirectory entries cfmOnly).files_with_cfm +
          (scanDirectory entries cfmOnly).files_without_cfm ∧
    (scanDirectory entries cfmOnly).total_files = entries.length ∧
    (scanDirectory entries cfmOnly).files_with_cfm =
        (entries.filter (fun e => e.frontmatter.isSome)).length ∧
    (scanDirectory entries cfmOnly).files_without_cfm =
        (entries.filter (fun e => e.frontmatter.isNone)).length ∧
    (scanDirectory entries false).entries = entries ∧
    ((scanDirectory entries false).entries).length =
        (scanDirectory entries cfmOnly).total_files ∧
    (scanDirectory entries true).entries =
        entries.filter (fun e => e.frontmatter.isSome) ∧
    ((scanDirectory entries true).entries).length =
        (scanDirectory entries cfmOnly).files_with_cfm := by
  have hpart := length_filter_partition (fun e : CfmEntry => e.frontmatter.isSome) entries
  have hcong : entries.filter (fun e => !e.frontmatter.isSome) =
      entries.filter (fun e => e.frontmatter.isNone) := by
    apply List.filter_congr
    intro e _
    cases e.frontmatter <;> rfl
  refine ⟨?_, rfl, rfl, rfl, rfl, rfl, rfl, rfl⟩
  show entries.length = _
  rw [show (scanDirectory entries cfmOnly).files_with_cfm =
      (entries.filter (fun e => e.frontmatter.isSome)).length from rfl,
    show (scanDirectory entries cfmOnly).files_without_cfm =
      (entries.filter (fun e => e.frontmatter.isNone)).length from rfl]
  rw [← hcong]
  omega

/-- Claim C4: every `ValidationResult` returned by `validateFrontmatter`,
on every input and every error path, satisfies
`isValid == (missing.isEmpty && stale.isEmpty && errors.isEmpty)`. -/
theorem claim_isValid_invariant (filePath : Str) (cfm : CfmEntry)
    (codeExports : Except Str (List Str)) :
    (validateFrontmatter filePath cfm codeExports).isValid =
      ((validateFrontmatter filePath cfm codeExports).missing.isEmpty &&
       ((validateFrontmatter filePath cfm codeExports).stale.isEmpty &&
        (validateFrontmatter filePath cfm codeExports).errors.isEmpty)) := by
  unfold validateFrontmatter
  cases cfmExportNames cfm.frontmatter with
  | error msg => simp
  | ok cfmExports =>
    by_cases h : isJsTsFile filePath
    · simp only [h, if_true]
      cases codeExports with
      | error msg => simp
      | ok code => simp
    · simp [h]

/-- Claim C3 counterexample: the declared-name derivation is NOT verbatim
for a colon-free entry — the source trims it (`e.split(":")[0].trim()`),
so the entry `" a "` yields the name `"a"`, while the claim's rule
(`cfmDeclaredNameSpec`) keeps `" a "`. -/
theorem claim_drift_names_counterexample :
    indexOfSub [':'] ((" a ").data) = none ∧
    cfmDeclaredName ((" a ").data) = ("a").data ∧
    cfmDeclaredNameSpec ((" a ").data) = (" a ").data ∧
    cfmDeclaredName ((" a ").data) ≠ cfmDeclaredNameSpec ((" a ").data) := by
  refine ⟨by decide, by decide, by decide, by decide⟩

/-- Claim C3 (amended): the drift comparison derives each declared name by
splitting the entry on the first colon and trimming the text before it —
an entry with no colon is used whole, but still trimmed — and returns
`missing` = codeExportSet − declaredNameSet and `stale` =
declaredNameSet − codeExportSet; when the two sets are equal, `missing`
and `stale` are empty and the file is valid. -/
theorem claim_drift_names_amended (exportsList code : List Str) :
    (∀ e i, indexOfSub [':'] e = some i → cfmDeclaredName e = jsTrim (e.take i)) ∧
    (∀ e, indexOfSub [':'] e = none → cfmDeclaredName e = jsTrim e) ∧
    (validateFrontmatter (("f.ts").data)
        { file := ("f.ts").data, language := some ("typescript").data,
          frontmatter := some (.ymap
            [(("exports").data, .ylist (exportsList.map .ystr))]),
          warnings := [] }
        (.ok code)).missing =
      code.filter (fun e => decide (e ∉ exportsList.map cfmDeclaredName)) ∧
    (validateFrontmatter (("f.ts").data)
        { file := ("f.ts").data, language := some ("typescript").data,
          frontmatter := some (.ymap
            [(("exports").data, .ylist (exportsList.map .ystr))]),
          warnings := [] }
        (.ok code)).stale =
      (exportsList.map cfmDeclaredName).filter (fun e => decide (e ∉ code)) ∧
    (∀ x, x ∈ (validateFrontmatter (("f.ts").data)
        { file := ("f.ts").data, language := some ("typescript").data,
          frontmatter := some (.ymap
            [(("exports").data, .ylist (exportsList.map .ystr))]),
          warnings := [] }
        (.ok code)).missing ↔
      x ∈ code ∧ x ∉ exportsList.map cfmDeclaredName) ∧
    (∀ x, x ∈ (validateFrontmatter (("f.ts").data)
        { file := ("f.ts").data, language := some ("typescript").data,
          frontmatter := some (.ymap
            [(("exports").data, .ylist (exportsList.map .ystr))]),
          warnings := [] }
        (.ok code)).stale ↔
      x ∈ exportsList.map cfmDeclaredName ∧ x ∉ code) ∧
    ((∀ x, x ∈ exportsList.map cfmDeclaredName ↔ x ∈ code) →
      (validateFrontmatter (("f.ts").data)
        { file := ("f.ts").data, language := some ("typescript").data,
          frontmatter := some (.ymap
            [(("exports").data, .ylist (exportsList.map .ystr))]),
          warnings := [] }
        (.ok code)).missing = [] ∧
      (validateFrontmatter (("f.ts").data)
        { file := ("f.ts").data, language := some ("typescript").data,
          frontmatter := some (.ymap
            [(("exports").data, .ylist (exportsList.map .ystr))]),
          warnings := [] }
        (.ok code)).stale = [] ∧
      (validateFrontmatter (("f.ts").data)
        { file := ("f.ts").data, language := some ("typescript").data,
          frontmatter := some (.ymap
            [(("exports").data, .ylist (exportsList.map .ystr))]),
          warnings := [] }
        (.ok code)).isValid = true) := by
  have hnames : cfmExportNames (some (.ymap
      [(("exports").data, .ylist (exportsList.map .ystr))])) =
      .ok (exportsList.map cfmDeclaredName) := by
    have hred : cfmExportNames (some (.ymap
        [(("exports").data, .ylist (exportsList.map .ystr))])) =
        mapDeclaredNames (exportsList.map .ystr) := rfl
    rw [hred, mapDeclaredNames_map_ystr]
  have hval : validateFrontmatter (("f.ts").data)
      { file := ("f.ts").data, language := some ("typescript").data,
        frontmatter := some (.ymap
          [(("exports").data, .ylist (exportsList.map .ystr))]),
        warnings := [] }
      (.ok code) =
      { file := ("f.ts").data, hasFrontmatter := true,
        isValid := (code.filter (fun e =>
            decide (e ∉ exportsList.map cfmDeclaredName))).isEmpty &&
          ((exportsList.map cfmDeclaredName).filter
            (fun e => decide (e ∉ code))).isEmpty,
        missing := code.filter (fun e =>
          decide (e ∉ exportsList.map cfmDeclaredName)),
        stale := (exportsList.map cfmDeclaredName).filter
          (fun e => decide (e ∉ code)),
        errors := [] } := by
    unfold validateFrontmatter
    rw [hnames]
    simp only [show isJsTsFile (("f.ts").data) = true from by decide, if_true]
  refine ⟨?_, ?_, ?_, ?_, ?_, ?_, ?_⟩
  · intro e i hi
    unfold cfmDeclaredName
    rw [hi]
  · intro e hi
    unfold cfmDeclaredName
    rw [hi]
  · rw [hval]
  · rw [hval]
  · intro x
    rw [hval]
    simp [List.mem_filter]
  · intro x
    rw [hval]
    simp [List.mem_filter]
  · intro hset
    rw [hval]
    have hm : code.filter (fun e =>
        decide (e ∉ exportsList.map cfmDeclaredName)) = [] := by
      apply List.filter_eq_nil_iff.mpr
      intro a ha
      simp only [decide_eq_true_eq]
      intro hno
      exact hno ((hset a).mpr ha)
    have hs : (exportsList.map cfmDeclaredName).filter
        (fun e => decide (e ∉ code)) = [] := by
      apply List.filter_eq_nil_iff.mpr
      intro a ha
      simp only [decide_eq_true_eq]
      intro hno
      exact hno ((hset a).mp ha)
    refine ⟨hm, hs, ?_⟩
    show ((code.filter (fun e =>
        decide (e ∉ exportsList.map cfmDeclaredName))).isEmpty &&
      ((exportsList.map cfmDeclaredName).filter
        (fun e => decide (e ∉ code))).isEmpty) = true
    rw [hm, hs]
    rfl

/-- Claim C8 counterexample: for a rule prefix with *leading* whitespace,
the source's fallback `linePrefix.trim()` (both ends) differs from the
claim's "prefix with trailing whitespace removed": with prefix `" #"` and
line `"#y"`, the source strips (`trim` gives `"#"`), while the claim's
rule leaves the line unmodified. -/
theorem claim_prefix_strip_counterexample :
    stripLine ((" #").data) (("#y").data) = ("y").data ∧
    stripLineSpec ((" #").data) (("#y").data) = ("#y").data ∧
    stripLine ((" #").data) (("#y").data) ≠
      stripLineSpec ((" #").data) (("#y").data) := by
  refine ⟨by decide, by decide, by decide⟩

/-- Claim C8 (amended): every line of the extracted region is transformed
independently: trim its leading whitespace; if the trimmed line starts
exactly with the prefix, remove the prefix; otherwise, if it starts with
the prefix with surrounding whitespace trimmed (both ends, and only when
that trimmed prefix is non-empty), remove that shortened prefix;
otherwise the line is left unmodified.  In particular a line whose prefix
differs from the rule's only in trailing whitespace is still stripped. -/
theorem claim_prefix_strip_amended (p line : Str) :
    (p.isPrefixOf (jsTrimStart line) →
       stripLine p line = (jsTrimStart line).drop p.length) ∧
    (¬ p.isPrefixOf (jsTrimStart line) → jsTrim p ≠ [] →
       (jsTrim p).isPrefixOf (jsTrimStart line) →
       stripLine p line = (jsTrimStart line).drop (jsTrim p).length) ∧
    (¬ p.isPrefixOf (jsTrimStart line) →
       (jsTrim p = [] ∨ ¬ (jsTrim p).isPrefixOf (jsTrimStart line)) →
       stripLine p line = line) ∧
    (∀ raw, stripRegion (some p) raw =
       List.intercalate ['\n'] ((raw.splitOn '\n').map (stripLine p))) := by
  refine ⟨?_, ?_, ?_, fun raw => rfl⟩
  · intro h
    simp only [stripLine]
    rw [if_pos h]
  · intro h1 h2 h3
    simp only [stripLine]
    rw [if_neg h1, if_pos ⟨h2, h3⟩]
  · intro h1 h2
    simp only [stripLine]
    rw [if_neg h1, if_neg ?_]
    rintro ⟨he, hp⟩
    rcases h2 with h2 | h2
    · exact he h2
    · exact h2 hp

/-- Claim C8 witness: the three cases of the amended rule at concrete
inputs — an exact prefix match, a trailing-whitespace-mismatch match
(the spec's "prefix tolerance" scenario), and no match. -/
theorem claim_prefix_strip_amended_witness :
    stripLine (("# ").data) (("  # intent: hi").data) = ("intent: hi").data ∧
    stripLine (("# ").data) (("#x").data) = ("x").data ∧
    stripLine (("# ").data) (("y").data) = ("y").data := by
  refine ⟨?_, ?_, ?_⟩
  · exact ((claim_prefix_strip_amended (("# ").data)
      (("  # intent: hi").data)).1 (by decide)).trans (by decide)
  · exact ((claim_prefix_strip_amended (("# ").data)
      (("#x").data)).2.1 (by decide) (by decide) (by decide)).trans (by decide)
  · exact (claim_prefix_strip_amended (("# ").data)
      (("y").data)).2.2.1 (by decide) (Or.inr (by decide))

/-- The contribution rule claim C9 states for the left-hand side of an
assignment expression. -/
def assignContributes (lhs : TsNode) (x : Str) : Prop :=
  (lhs = .propAccessE (.identE (("module").data)) (("exports").data) ∧
     x = ("module.exports").data) ∨
  (∃ p, lhs = .propAccessE (.identE (("exports").data)) p ∧ x = p) ∨
  (lhs = .identE (("exports").data) ∧ x = ("module.exports").data)

theorem mem_ruleFive (lhs : TsNode) (x : Str) :
    x ∈ ruleFiveContrib lhs ↔ assignContributes lhs x := by
  cases lhs with
  | identE nm =>
    by_cases h : nm = ("exports").data
    · subst h
      simp [ruleFiveContrib, assignContributes]
    · simp [ruleFiveContrib, assignContributes, h]
  | propAccessE base prop =>
    cases base with
    | identE b =>
      by_cases hb1 : b = ("module").data
      · subst hb1
        by_cases hp : prop = ("exports").data
        · subst hp
          simp [ruleFiveContrib, assignContributes]
        · simp [ruleFiveContrib, assignContributes, hp]
      · by_cases hb2 : b = ("exports").data
        · subst hb2
          simp [ruleFiveContrib, assignContributes, hb1]
        · simp [ruleFiveContrib, assignContributes, hb1, hb2]
    | propAccessE b2 p2 => simp [ruleFiveContrib, assignContributes]
    | assignE l2 r2 => simp [ruleFiveContrib, assignContributes]
    | otherNode cs2 => simp [ruleFiveContrib, assignContributes]
  | assignE l r => simp [ruleFiveContrib, assignContributes]
  | otherNode cs => simp [ruleFiveContrib, assignContributes]

mutual
theorem mem_collectAssignExports (x : Str) (n : TsNode) :
    x ∈ collectAssignExports n ↔
      ∃ l r, SubNode (.assignE l r) n ∧ x ∈ ruleFiveContrib l := by
  cases n with
  | identE nm =>
    simp only [collectAssignExports, List.not_mem_nil, false_iff]
    rintro ⟨l, r, h, _⟩
    cases h
  | propAccessE b p =>
    simp only [collectAssignExports]
    rw [mem_collectAssignExports x b]
    constructor
    · rintro ⟨l, r, h, hx⟩
      exact ⟨l, r, SubNode.propBase h, hx⟩
    · rintro ⟨l, r, h, hx⟩
      cases h with
      | propBase h2 => exact ⟨l, r, h2, hx⟩
  | assignE lhs rhs =>
    simp only [collectAssignExports, List.mem_append]
    rw [mem_collectAssignExports x lhs, mem_collectAssignExports x rhs]
    constructor
    · rintro ((hx | ⟨l, r, h, hx⟩) | ⟨l, r, h, hx⟩)
      · exact ⟨lhs, rhs, SubNode.refl _, hx⟩
      · exact ⟨l, r, SubNode.assignL h, hx⟩
      · exact ⟨l, r, SubNode.assignR h, hx⟩
    · rintro ⟨l, r, h, hx⟩
      cases h with
      | refl => exact Or.inl (Or.inl hx)
      | assignL h2 => exact Or.inl (Or.inr ⟨l, r, h2, hx⟩)
      | assignR h2 => exact Or.inr ⟨l, r, h2, hx⟩
  | otherNode cs =>
    simp only [collectAssignExports]
    rw [mem_collectAssignList x cs]
    constructor
    · rintro ⟨l, r, h, hx⟩
      exact ⟨l, r, SubNode.inChildren h, hx⟩
    · rintro ⟨l, r, h, hx⟩
      cases h with
      | inChildren h2 => exact ⟨l, r, h2, hx⟩

theorem mem_collectAssignList (x : Str) (cs : TsNodeList) :
    x ∈ collectAssignList cs ↔
      ∃ l r, SubNodeL (.assignE l r) cs ∧ x ∈ ruleFiveContrib l := by
  cases cs with
  | nil =>
    simp only [collectAssignList, List.not_mem_nil, false_iff]
    rintro ⟨l, r, h, _⟩
    cases h
  | cons hd tl =>
    simp only [collectAssignList, List.mem_append]
    rw [mem_collectAssignExports x hd, mem_collectAssignList x tl]
    constructor
    · rintro (⟨l, r, h, hx⟩ | ⟨l, r, h, hx⟩)
      · exact ⟨l, r, SubNodeL.head h, hx⟩
      · exact ⟨l, r, SubNodeL.tail h, hx⟩
    · rintro ⟨l, r, h, hx⟩
      cases h with
      | head h2 => exact Or.inl ⟨l, r, h2, hx⟩
      | tail h2 => exact Or.inr ⟨l, r, h2, hx⟩
end

/-- Claim C9: a name is collected by the CommonJS assignment rule exactly
when some assignment expression somewhere in the tree has a left-hand
side of one of the three claimed forms: `module.exports` (sentinel
`"module.exports"`), `exports.<p>` (the property name `p`), or the bare
identifier `exports` (sentinel `"module.exports"`); no other assignment
form contributes. -/
theorem claim_commonjs_assignment_rule (n : TsNode) (x : Str) :
    x ∈ collectAssignExports n ↔
      ∃ l r, SubNode (.assignE l r) n ∧ assignContributes l x := by
  rw [mem_collectAssignExports]
  constructor <;> rintro ⟨l, r, h, hx⟩
  · exact ⟨l, r, h, (mem_ruleFive l x).mp hx⟩
  · exact ⟨l, r, h, (mem_ruleFive l x).mpr hx⟩

/-- The JS/TS delimiter rule of the language registry
(`languages/registry.json`): block comments `/*---` … `---*/` and no
line prefix. -/
def jsRule : LanguageRule :=
  { comment_start := ("/*---").data, comment_end := ("---*/").data,
    line_prefix := none }

/-- Claim C1 (code bug at `validator.ts` lines 32–40): for a headerless
`f.js` whose code is `exports.a = 1;` — so the locator reports absent and
the extracted frontmatter is null — `validateFrontmatter` nevertheless
returns `hasFrontmatter = true`, puts every code export into `missing`,
and scores the file `isValid = false`.  The guard `if (!cfm)` that the
code's own comment expects to mark `hasFrontmatter = false` and return
never fires, because `extractFrontmatter` always resolves to a truthy
entry object. -/
theorem claim_headerless_file_scored_invalid :
    (extractFrontmatter (some ⟨("javascript").data, jsRule⟩)
        (("exports.a = 1;\n").data) miniParse (("f.js").data)).frontmatter =
      none ∧
    collectAssignExports (.otherNode (.cons (.otherNode (.cons
        (.assignE (.propAccessE (.identE (("exports").data)) (("a").data))
          (.otherNode .nil)) .nil)) .nil)) = [("a").data] ∧
    validateFrontmatter (("f.js").data)
        (extractFrontmatter (some ⟨("javascript").data, jsRule⟩)
          (("exports.a = 1;\n").data) miniParse (("f.js").data))
        (.ok [("a").data]) =
      { file := ("f.js").data, hasFrontmatter := true, isValid := false,
        missing := [("a").data], stale := [], errors := [] } := by
  refine ⟨rfl, rfl, by decide⟩

/-- Claim C5 counterexample: a located region whose text parses as a YAML
*list* is returned as the frontmatter document — in JavaScript
`typeof [] === "object"`, so the shape check at `parser.ts` line 87 does
not reject it — contradicting the claim that a list is treated as an
invalid shape and not returned. -/
theorem claim_parse_shape_counterexample :
    (extractFrontmatter (some ⟨("javascript").data, jsRule⟩)
        (("/*---\n- a\n---*/\n").data)
        (fun _ => .ok (.ylist [.ystr (("a").data)]))
        (("f.js").data)).frontmatter =
      some (.ylist [.ystr (("a").data)]) ∧
    (extractFrontmatter (some ⟨("javascript").data, jsRule⟩)
        (("/*---\n- a\n---*/\n").data)
        (fun _ => .ok (.ylist [.ystr (("a").data)]))
        (("f.js").data)).frontmatter ≠ none := by
  constructor
  · rfl
  · intro h
    rw [show (extractFrontmatter (some ⟨("javascript").data, jsRule⟩)
        (("/*---\n- a\n---*/\n").data)
        (fun _ => .ok (.ylist [.ystr (("a").data)]))
        (("f.js").data)).frontmatter =
      some (.ylist [.ystr (("a").data)]) from rfl] at h
    exact Option.noConfusion h

/-- Claim C5 (amended): for a located header region, a parse failure
yields a typed result — null document plus the parse-failure warning,
never a propagated exception; a successful parse whose value is a scalar
or null (the values that are falsy or not `typeof "object"`) is treated
as an invalid shape and not returned; a successful parse to a *list*,
however, passes the JavaScript object check and IS returned as the
document. -/
theorem claim_parse_shape_amended (lang : Language) (content : Str)
    (parseYaml : Str → Except Str Yaml) (path hc : Str)
    (h : extractHeaderContent content lang.rule.comment_start
        lang.rule.comment_end lang.rule.line_prefix = some hc) :
    (∀ msg, parseYaml hc = .error msg →
      (extractFrontmatter (some lang) content parseYaml path).frontmatter =
        none ∧
      (extractFrontmatter (some lang) content parseYaml path).warnings =
        [.yamlParseFailed msg]) ∧
    (∀ v, parseYaml hc = .ok v → (¬ jsTruthy v ∨ ¬ typeofIsObject v) →
      (extractFrontmatter (some lang) content parseYaml path).frontmatter =
        none ∧
      (extractFrontmatter (some lang) content parseYaml path).warnings =
        [.notYamlObject]) ∧
    (∀ v : Yaml, (¬ jsTruthy v ∨ ¬ typeofIsObject v) ↔
      (v = .ynull ∨ (∃ b, v = .ybool b) ∨ (∃ i, v = .ynum i) ∨
        (∃ s, v = .ystr s))) ∧
    (∀ items, parseYaml hc = .ok (.ylist items) →
      (extractFrontmatter (some lang) content parseYaml path).frontmatter =
        some (.ylist items)) := by
  refine ⟨?_, ?_, ?_, ?_⟩
  · intro msg hp
    simp only [extractFrontmatter, h, hp]
    refine ⟨?_, ?_⟩ <;> trivial
  · intro v hp hcond
    simp only [extractFrontmatter, h, hp]
    rw [if_pos hcond]
    refine ⟨?_, ?_⟩ <;> trivial
  · intro v
    cases v <;> simp [jsTruthy, typeofIsObject]
  · intro items hp
    simp only [extractFrontmatter, h, hp]
    rw [if_neg (by simp [jsTruthy, typeofIsObject])]

/-- Claim C5 witness: the three behaviours at a concrete file
`/*---\nX\n---*/` whose region is `X`, with stub parsers for a parse
failure, a scalar result and a list result. -/
theorem claim_parse_shape_amended_witness :
    (extractFrontmatter (some ⟨("javascript").data, jsRule⟩)
        (("/*---\nX\n---*/").data) (fun _ => .error (("boom").data))
        (("f.js").data)).frontmatter = none ∧
    (extractFrontmatter (some ⟨("javascript").data, jsRule⟩)
        (("/*---\nX\n---*/").data) (fun _ => .error (("boom").data))
        (("f.js").data)).warnings = [.yamlParseFailed (("boom").data)] ∧
    (extractFrontmatter (some ⟨("javascript").data, jsRule⟩)
        (("/*---\nX\n---*/").data) (fun _ => .ok (.ystr (("X").data)))
        (("f.js").data)).frontmatter = none ∧
    (extractFrontmatter (some ⟨("javascript").data, jsRule⟩)
        (("/*---\nX\n---*/").data) (fun _ => .ok (.ylist []))
        (("f.js").data)).frontmatter = some (.ylist []) := by
  have hreg : extractHeaderContent (("/*---\nX\n---*/").data)
      (Language.mk (("javascript").data) jsRule).rule.comment_start
      (Language.mk (("javascript").data) jsRule).rule.comment_end
      (Language.mk (("javascript").data) jsRule).rule.line_prefix =
      some (("X").data) := by decide
  have h1 := (claim_parse_shape_amended ⟨("javascript").data, jsRule⟩
      (("/*---\nX\n---*/").data) (fun _ => .error (("boom").data))
      (("f.js").data) (("X").data) hreg).1 (("boom").data) rfl
  have h2 := (claim_parse_shape_amended ⟨("javascript").data, jsRule⟩
      (("/*---\nX\n---*/").data) (fun _ => .ok (.ystr (("X").data)))
      (("f.js").data) (("X").data) hreg).2.1 (.ystr (("X").data)) rfl
      (Or.inr (by decide))
  have h3 := (claim_parse_shape_amended ⟨("javascript").data, jsRule⟩
      (("/*---\nX\n---*/").data) (fun _ => .ok (.ylist []))
      (("f.js").data) (("X").data) hreg).2.2.2 [] rfl
  exact ⟨h1.1, h1.2, h2.1, h3⟩

/-- The normalised, shebang-skipped, leading-trimmed text the locator
matches against (`parser.ts` lines 136–149). -/
def locTrimmed (content : Str) : Str :=
  jsTrimStart (locAfterShebang (normalizeNewlines content))

/-- Claim C6: the locator reports absent exactly when (1) after newline
normalisation and skipping a leading `#!` shebang line the
whitespace-trimmed text does not begin with the start marker, or (2) no
occurrence of the end marker exists after the start marker (an
unterminated header is treated identically to no header), or (3) the
extracted, prefix-stripped region trims to the empty string; otherwise it
returns the substring strictly between the two markers, prefix-stripped
and trimmed. -/
theorem claim_locator_absent_cases (content cs ce : Str) (lp : Option Str) :
    (extractHeaderContent content cs ce lp = none ↔
      (¬ cs.isPrefixOf (locTrimmed content) ∨
       indexOfSub ce ((locTrimmed content).drop cs.length) = none ∨
       (∃ i, indexOfSub ce ((locTrimmed content).drop cs.length) = some i ∧
         jsTrim (stripRegion lp
           (((locTrimmed content).drop cs.length).take i)) = []))) ∧
    (∀ i, cs.isPrefixOf (locTrimmed content) →
      indexOfSub ce ((locTrimmed content).drop cs.length) = some i →
      jsTrim (stripRegion lp (((locTrimmed content).drop cs.length).take i)) ≠
        [] →
      extractHeaderContent content cs ce lp =
        some (jsTrim (stripRegion lp
          (((locTrimmed content).drop cs.length).take i)))) := by
  have hdef : extractHeaderContent content cs ce lp =
      (if cs.isPrefixOf (locTrimmed content) then
        match indexOfSub ce ((locTrimmed content).drop cs.length) with
        | some endIndex =>
          if (jsTrim (stripRegion lp
              (((locTrimmed content).drop cs.length).take endIndex))).length > 0
          then some (jsTrim (stripRegion lp
              (((locTrimmed content).drop cs.length).take endIndex)))
          else none
        | none => none
      else none) := rfl
  constructor
  · by_cases h1 : cs.isPrefixOf (locTrimmed content)
    · cases h2 : indexOfSub ce ((locTrimmed content).drop cs.length) with
      | none =>
        have hred : extractHeaderContent content cs ce lp = none := by
          rw [hdef, if_pos h1]
          simp only [h2]
        rw [hred]
        exact ⟨fun _ => Or.inr (Or.inl rfl), fun _ => rfl⟩
      | some i =>
        have hred : extractHeaderContent content cs ce lp =
            (if (jsTrim (stripRegion lp
                (((locTrimmed content).drop cs.length).take i))).length > 0
             then some (jsTrim (stripRegion lp
                (((locTrimmed content).drop cs.length).take i)))
             else none) := by
          rw [hdef, if_pos h1]
          simp only [h2]
        rw [hred]
        by_cases h3 : (jsTrim (stripRegion lp
            (((locTrimmed content).drop cs.length).take i))).length > 0
        · rw [if_pos h3]
          constructor
          · intro hsome
            exact Option.noConfusion hsome
          · rintro (hA | hB | ⟨j, hj, hempty⟩)
            · exact absurd h1 hA
            · exact Option.noConfusion hB
            · injection hj with hj
              subst hj
              rw [hempty] at h3
              simp at h3
        · rw [if_neg h3]
          constructor
          · intro _
            refine Or.inr (Or.inr ⟨i, rfl, ?_⟩)
            have hz : (jsTrim (stripRegion lp
                (((locTrimmed content).drop cs.length).take i))).length = 0 := by
              omega
            exact List.length_eq_zero.mp hz
          · intro _
            rfl
    · have hred : extractHeaderContent content cs ce lp = none := by
        rw [hdef, if_neg h1]
      rw [hred]
      exact ⟨fun _ => Or.inl h1, fun _ => rfl⟩
  · intro i h1 h2 h3
    rw [hdef, if_pos h1]
    simp only [h2]
    rw [if_pos (by
      have := List.length_pos.mpr h3
      omega)]

/-- Claim C6 witness: a file with no marker is absent via case (1); a
concrete delimited file yields the trimmed text strictly between the
markers (here `endIndex = 12` in the text after the start marker). -/
theorem claim_locator_absent_cases_witness :
    extractHeaderContent (("const x = 1;").data) (("/*---").data)
        (("---*/").data) none = none ∧
    extractHeaderContent (("/*---\nintent: hi\n---*/\ncode").data)
        (("/*---").data) (("---*/").data) none =
      some (("intent: hi").data) := by
  constructor
  · exact (claim_locator_absent_cases (("const x = 1;").data) (("/*---").data)
      (("---*/").data) none).1.mpr (Or.inl (by decide))
  · exact ((claim_locator_absent_cases (("/*---\nintent: hi\n---*/\ncode").data)
      (("/*---").data) (("---*/").data) none).2 12 (by decide) (by decide)
      (by decide)).trans (by decide)

/-- Claim C7 counterexample: replacing the header of
`/*---\nA\n---*/XYZ` (prefix `[]`, old header `/*---\nA\n---*/`, suffix
`XYZ`) with `NEW` yields `NEW\nXYZ`, not `[] ++ NEW ++ XYZ`: the byte
right after the old header boundary is not preserved — the writer always
normalises the separation after the header to exactly one newline. -/
theorem claim_rewrite_replaces_counterexample :
    replaceOrInsertHeader (("/*---\nA\n---*/XYZ").data) (("/*---").data)
        (("---*/").data) (("NEW").data) = ("NEW\nXYZ").data ∧
    ("/*---\nA\n---*/XYZ").data =
      ([] : Str) ++ ("/*---\nA\n---*/").data ++ ("XYZ").data ∧
    replaceOrInsertHeader (("/*---\nA\n---*/XYZ").data) (("/*---").data)
        (("---*/").data) (("NEW").data) ≠
      ([] : Str) ++ ("NEW").data ++ ("XYZ").data := by
  refine ⟨by decide, by decide, by decide⟩

/-- Claim C7 (amended): when the (whitespace-trimmed, shebang-split) rest
of the file begins with the start marker and contains the end marker, the
writer replaces the old header region in place: the result is the shebang
line, the new header, then exactly one newline standing for the (zero to
two) newlines that followed the old end marker, then the remainder of the
file byte-for-byte.  Whitespace before the header/shebang is dropped and
the separation is normalised, so bytes outside the old header boundaries
are preserved only beyond that separator; no duplicate header region of
the old text remains. -/
theorem claim_rewrite_replaces_amended (content cs ce newHeader : Str)
    (i : Nat)
    (h1 : cs.isPrefixOf (jsTrimStart (splitShebang (jsTrimStart content)).2))
    (h2 : indexOfSub ce
      ((jsTrimStart (splitShebang (jsTrimStart content)).2).drop cs.length) =
      some i) :
    replaceOrInsertHeader content cs ce newHeader =
      (splitShebang (jsTrimStart content)).1 ++ newHeader ++
        '\n' :: dropUpTo2NL
          (((jsTrimStart (splitShebang (jsTrimStart content)).2).drop
            cs.length).drop (i + ce.length)) := by
  have hdef : replaceOrInsertHeader content cs ce newHeader =
      (if cs.isPrefixOf (jsTrimStart (splitShebang (jsTrimStart content)).2) then
        match indexOfSub ce
            ((jsTrimStart (splitShebang (jsTrimStart content)).2).drop
              cs.length) with
        | some endIdx =>
          (splitShebang (jsTrimStart content)).1 ++ newHeader ++
            '\n' :: dropUpTo2NL
              (((jsTrimStart (splitShebang (jsTrimStart content)).2).drop
                cs.length).drop (endIdx + ce.length))
        | none =>
          (splitShebang (jsTrimStart content)).1 ++ newHeader ++
            '\n' :: '\n' :: (splitShebang (jsTrimStart content)).2
      else
        (splitShebang (jsTrimStart content)).1 ++ newHeader ++
          '\n' :: '\n' :: (splitShebang (jsTrimStart content)).2) := rfl
  rw [hdef, if_pos h1]
  simp only [h2]

/-- Claim C7 witness: replacing the header of a shebanged file — the
shebang line is kept, the old header region (`endIndex = 3` after the
start marker) is replaced and the two blank-line newlines collapse to
one. -/
theorem claim_rewrite_replaces_amended_witness :
    replaceOrInsertHeader
        (("#!/usr/bin/env node\n/*---\nA\n---*/\n\nrest();\n").data)
        (("/*---").data) (("---*/").data) (("NEW").data) =
      ("#!/usr/bin/env node\nNEW\nrest();\n").data := by
  exact (claim_rewrite_replaces_amended
    (("#!/usr/bin/env node\n/*---\nA\n---*/\n\nrest();\n").data)
    (("/*---").data) (("---*/").data) (("NEW").data) 3
    (by decide) (by decide)).trans (by decide)

/-! ## Round-trip infrastructure for claim C2 -/

theorem replaceCRLF_eq_self : ∀ {l : Str}, '\r' ∉ l → replaceCRLF l = l := by
  intro l
  induction l with
  | nil => intro _; rfl
  | cons c rest ih =>
    intro h
    have hc : c ≠ '\r' := by
      intro hc
      exact h (by rw [hc]; exact List.mem_cons_self _ _)
    have hr : '\r' ∉ rest := fun hm => h (List.mem_cons_of_mem c hm)
    rw [replaceCRLF.eq_def]
    split
    · rename_i heq
      exfalso
      injection heq with h1 _
      exact hc h1
    · rename_i c2 r2 heq
      injection heq with h1 h2
      subst h1
      subst h2
      rw [ih hr]
    · rename_i heq
      exact absurd heq (by simp)

theorem normalizeNewlines_eq_self {l : Str} (h : '\r' ∉ l) :
    normalizeNewlines l = l := by
  unfold normalizeNewlines
  rw [replaceCRLF_eq_self h]
  have hmap : ∀ x ∈ l, (fun c => if c = '\r' then '\n' else c) x = x := by
    intro x hx
    have : x ≠ '\r' := fun he => h (he ▸ hx)
    simp [this]
  rw [List.map_congr_left hmap]
  exact List.map_id l

theorem normalizeNewlines_no_cr (l : Str) : '\r' ∉ normalizeNewlines l := by
  unfold normalizeNewlines
  intro hm
  rcases List.mem_map.mp hm with ⟨a, _, ha⟩
  by_cases h : a = '\r' <;> simp [h] at ha

theorem isPrefixOf_append_right {p b : Str} (h : p.isPrefixOf b) (x : Str) :
    p.isPrefixOf (b ++ x) := by
  rw [List.isPrefixOf_iff_prefix] at h ⊢
  exact h.trans (List.prefix_append b x)

theorem isPrefixOf_self_append (p x : Str) : p.isPrefixOf (p ++ x) := by
  rw [List.isPrefixOf_iff_prefix]
  exact List.prefix_append p x

theorem single_prefix_iff {c : Char} {l : Str} :
    [c].isPrefixOf l ↔ ∃ rest, l = c :: rest := by
  cases l with
  | nil => simp [List.isPrefixOf]
  | cons a t =>
    show ((c == a) && List.isPrefixOf ([] : Str) t) = true ↔ _
    simp only [List.isPrefixOf, Bool.and_true, beq_iff_eq]
    constructor
    · intro h
      exact ⟨t, by rw [h]⟩
    · rintro ⟨rest, hr⟩
      injection hr with h1 _
      exact h1.symm

theorem isPrefixOf_drop_append_iff {p A tail : Str} {k : Nat}
    (h : k + p.length ≤ A.length) :
    p.isPrefixOf ((A ++ tail).drop k) ↔ p.isPrefixOf (A.drop k) := by
  rw [List.isPrefixOf_iff_prefix, List.isPrefixOf_iff_prefix,
    List.prefix_iff_eq_take, List.prefix_iff_eq_take]
  have hd : (A ++ tail).drop k = A.drop k ++ tail := by
    rw [List.drop_append_eq_append_drop]
    have hz : k - A.length = 0 := by omega
    rw [hz, List.drop_zero]
  rw [hd]
  have ht : (A.drop k ++ tail).take p.length = (A.drop k).take p.length := by
    rw [List.take_append_eq_append_take]
    have hlen : p.length - (A.drop k).length = 0 := by
      rw [List.length_drop]
      omega
    rw [hlen, List.take_zero, List.append_nil]
  rw [ht]

theorem single_not_prefix_drop {c : Char} {body rest : Str} (h : c ∉ body)
    {k : Nat} (hk : k < body.length) :
    ¬ [c].isPrefixOf ((body ++ rest).drop k) := by
  intro hp
  have hd : (body ++ rest).drop k = body.drop k ++ rest := by
    rw [List.drop_append_eq_append_drop]
    have hz : k - body.length = 0 := by omega
    rw [hz, List.drop_zero]
  rw [hd, List.drop_eq_getElem_cons hk] at hp
  rcases single_prefix_iff.mp hp with ⟨r2, hr2⟩
  injection hr2 with h1 _
  exact h (h1 ▸ List.getElem_mem hk)

theorem not_mem_take_of_min {c : Char} {t : Str} {i : Nat}
    (hmin : ∀ k, k < i → ¬ [c].isPrefixOf (t.drop k)) : c ∉ t.take i := by
  intro hm
  rcases List.mem_iff_getElem.mp hm with ⟨k, hk, hget⟩
  have hki : k < i := by
    have := List.length_take i t
    omega
  have hkt : k < t.length := by
    have := List.length_take i t
    omega
  apply hmin k hki
  rw [List.drop_eq_getElem_cons hkt]
  rw [show t[k] = c from by rw [← List.getElem_take t]; exact hget]
  exact single_prefix_iff.mpr ⟨_, rfl⟩

theorem head_not_ws_of_trimStart_fix {c : Char} {t : Str}
    (h : jsTrimStart (c :: t) = c :: t) : isJsWs c = false := by
  cases hc : isJsWs c with
  | false => rfl
  | true =>
    exfalso
    rw [jsTrimStart_cons_ws hc] at h
    have hle : (jsTrimStart t).length ≤ t.length := by
      unfold jsTrimStart
      exact (List.dropWhile_sublist _).length_le
    have hlen := congrArg List.length h
    rw [List.length_cons] at hlen
    omega

theorem jsTrimStart_append_left {a : Str} (ha : jsTrimStart a = a)
    (ha0 : a ≠ []) (x : Str) : jsTrimStart (a ++ x) = a ++ x := by
  cases a with
  | nil => exact absurd rfl ha0
  | cons c t =>
    have hc : isJsWs c = false := head_not_ws_of_trimStart_fix ha
    rw [show (c :: t) ++ x = c :: (t ++ x) from rfl]
    exact jsTrimStart_cons_not_ws hc (t ++ x)

theorem shebang_not_prefix_header {cs : Str} (hcs0 : cs ≠ [])
    (hcsSh : ¬ ("#!".data).isPrefixOf cs) (r : Str) :
    ¬ ("#!".data).isPrefixOf (cs ++ '\n' :: r) := by
  cases cs with
  | nil => exact absurd rfl hcs0
  | cons a t =>
    cases t with
    | nil =>
      intro hp
      simp [List.isPrefixOf] at hp
    | cons b t2 =>
      intro hp
      apply hcsSh
      simp only [show ((a :: b :: t2) ++ '\n' :: r : Str) =
        a :: b :: (t2 ++ '\n' :: r) from rfl] at hp
      simp only [show ("#!").data = ['#', '!'] from rfl, List.isPrefixOf,
        Bool.and_eq_true, beq_iff_eq] at hp ⊢
      exact ⟨hp.1, hp.2.1, by simp⟩

theorem two_prefix {t : Str} (h : ("#!".data).isPrefixOf t) :
    ∃ t2, t = '#' :: '!' :: t2 := by
  cases t with
  | nil => simp [List.isPrefixOf] at h
  | cons a t1 =>
    cases t1 with
    | nil => simp [List.isPrefixOf] at h
    | cons b t2 =>
      have hab : '#' = a ∧ '!' = b := by
        have h2 : (('#' == a) && (('!' == b) &&
            List.isPrefixOf ([] : Str) t2)) = true := h
        simp only [Bool.and_eq_true, beq_iff_eq, List.isPrefixOf] at h2
        exact ⟨h2.1, h2.2.1⟩
      exact ⟨t2, by rw [← hab.1, ← hab.2]⟩

theorem splitShebang_shape (t : Str) :
    (splitShebang t).1 = [] ∨
    ∃ body, (splitShebang t).1 = body ++ ['\n'] ∧
      ("#!".data).isPrefixOf body ∧ '\n' ∉ body := by
  unfold splitShebang
  by_cases h : ("#!".data).isPrefixOf t
  · rw [if_pos h]
    cases hio : indexOfSub ['\n'] t with
    | none => simp
    | some i =>
      rcases indexOfSub_eq_some_iff.mp hio with ⟨hpre, hmin⟩
      rcases single_prefix_iff.mp hpre with ⟨r2, hr2⟩
      have hit : i < t.length := by
        have := congrArg List.length hr2
        rw [List.length_drop, List.length_cons] at this
        omega
      refine Or.inr ⟨t.take i, ?_, ?_, ?_⟩
      · show t.take (i + 1) = t.take i ++ ['\n']
        rw [List.take_succ]
        have : t[i]? = some '\n' := by
          rw [List.getElem?_eq_getElem hit]
          have := List.drop_eq_getElem_cons hit
          rw [hr2] at this
          injection this with h1 _
          rw [h1]
        rw [this]
        rfl
      · rcases two_prefix h with ⟨t2, ht2⟩
        have h2 : 2 ≤ i := by
          by_contra hlt
          push_neg at hlt
          interval_cases i
          · rw [ht2] at hr2
            rw [show List.drop 0 ('#' :: '!' :: t2) = '#' :: '!' :: t2 from
              rfl] at hr2
            injection hr2 with h1 h2
            exact absurd h1 (by decide)
          · rw [ht2] at hr2
            rw [show List.drop 1 ('#' :: '!' :: t2) = '!' :: t2 from
              rfl] at hr2
            injection hr2 with h1 h2
            exact absurd h1 (by decide)
        rw [List.isPrefixOf_iff_prefix, List.prefix_iff_eq_take] at h ⊢
        have htt : (t.take i).take (("#!").data).length =
            t.take (("#!").data).length := by
          rw [List.take_take]
          congr 1
          show min (("#!").data).length i = (("#!").data).length
          have : (("#!").data).length = 2 := rfl
          omega
        rw [htt]
        exact h
      · exact not_mem_take_of_min hmin
  · rw [if_neg h]
    simp

theorem splitShebang_append (t : Str) :
    (splitShebang t).1 ++ (splitShebang t).2 = t := by
  unfold splitShebang
  by_cases h : ("#!".data).isPrefixOf t
  · rw [if_pos h]
    cases hio : indexOfSub ['\n'] t with
    | some i => simp [List.take_append_drop]
    | none => simp
  · rw [if_neg h]
    simp

theorem splitShebang_snd_subset (t : Str) : (splitShebang t).2 ⊆ t := by
  intro x hx
  rw [← splitShebang_append t]
  exact List.mem_append_right _ hx

theorem splitShebang_fst_subset (t : Str) : (splitShebang t).1 ⊆ t := by
  intro x hx
  rw [← splitShebang_append t]
  exact List.mem_append_left _ hx

theorem jsTrimStart_subset (l : Str) : jsTrimStart l ⊆ l :=
  (List.dropWhile_sublist _).subset

theorem dropUpTo2NL_subset (l : Str) : dropUpTo2NL l ⊆ l := by
  rw [dropUpTo2NL.eq_def]
  split
  · intro x hx
    exact List.mem_cons_of_mem _ (List.mem_cons_of_mem _ hx)
  · intro x hx
    exact List.mem_cons_of_mem _ hx
  · exact fun x hx => hx

theorem locAfterShebang_shebang (body X : Str)
    (hb : ("#!".data).isPrefixOf body) (hnb : '\n' ∉ body) :
    locAfterShebang ((body ++ ['\n']) ++ X) = X := by
  unfold locAfterShebang
  have hassoc : (body ++ ['\n']) ++ X = body ++ ('\n' :: X) := by
    rw [List.append_assoc]
    rfl
  have hpre : ("#!".data).isPrefixOf ((body ++ ['\n']) ++ X) := by
    rw [hassoc]
    exact isPrefixOf_append_right hb ('\n' :: X)
  rw [if_pos hpre]
  have hio : indexOfSub ['\n'] ((body ++ ['\n']) ++ X) = some body.length := by
    apply indexOfSub_eq_some_iff.mpr
    constructor
    · rw [hassoc, List.drop_left]
      exact single_prefix_iff.mpr ⟨X, rfl⟩
    · intro k hk
      rw [hassoc]
      exact single_not_prefix_drop hnb hk
  simp only [hio]
  have hlen : (body ++ ['\n']).length = body.length + 1 := by simp
  rw [← hlen, List.drop_left]

theorem indexOf_written_marker (s ce tail : Str)
    (hmark : ∀ k, k < s.length + 2 →
      ¬ ce.isPrefixOf ((('\n' :: s) ++ '\n' :: ce).drop k)) :
    indexOfSub ce (('\n' :: s) ++ '\n' :: (ce ++ tail)) =
      some (s.length + 2) := by
  have hA : ('\n' :: s) ++ '\n' :: (ce ++ tail) =
      (('\n' :: s) ++ ['\n']) ++ (ce ++ tail) := by
    rw [List.append_assoc]
    rfl
  have hce0 : ce ≠ [] := by
    intro hce
    apply hmark 0 (by omega)
    rw [hce]
    simp [List.isPrefixOf]
  apply indexOfSub_eq_some_iff.mpr
  constructor
  · have hlen : (('\n' :: s) ++ ['\n']).length = s.length + 2 := by simp
    rw [hA, ← hlen, List.drop_left]
    exact isPrefixOf_self_append ce tail
  · intro k hk hp
    apply hmark k hk
    have hAA : ('\n' :: s) ++ '\n' :: ce = (('\n' :: s) ++ ['\n']) ++ ce := by
      rw [List.append_assoc]
      rfl
    have hfull : ('\n' :: s) ++ '\n' :: (ce ++ tail) =
        ((('\n' :: s) ++ ['\n']) ++ ce) ++ tail := by
      simp
    rw [hfull] at hp
    rw [hAA]
    refine (isPrefixOf_drop_append_iff ?_).mp hp
    simp only [List.length_append, List.length_cons]
    simp at hk ⊢
    omega

theorem jsTrim_wrap {s : Str} (hfix : jsTrim s = s) (hs0 : s ≠ []) :
    jsTrim ('\n' :: (s ++ ['\n'])) = s := by
  have hstart : jsTrimStart s = s := jsTrim_fix_trimStart hfix
  have hend : jsTrimEnd s = s := jsTrim_fix_trimEnd hfix
  unfold jsTrim
  rw [jsTrimStart_cons_ws (by decide) (s ++ ['\n'])]
  rw [jsTrimStart_append_left hstart hs0]
  unfold jsTrimEnd
  rw [List.reverse_append]
  rw [show (['\n'] : Str).reverse = ['\n'] from rfl]
  rw [show (['\n'] : Str) ++ s.reverse = '\n' :: s.reverse from rfl]
  rw [List.dropWhile_cons, if_pos (by decide)]
  have hdw : List.dropWhile isJsWs s.reverse = s.reverse := by
    have h2 := congrArg List.reverse hend
    rw [show jsTrimEnd s = (s.reverse.dropWhile isJsWs).reverse from rfl,
      List.reverse_reverse] at h2
    exact h2
  rw [hdw, List.reverse_reverse]

theorem replaceOrInsertHeader_eq (content cs ce newHeader : Str) :
    replaceOrInsertHeader content cs ce newHeader =
      (if cs.isPrefixOf (jsTrimStart (splitShebang (jsTrimStart content)).2) then
        match indexOfSub ce
            ((jsTrimStart (splitShebang (jsTrimStart content)).2).drop
              cs.length) with
        | some endIdx =>
          (splitShebang (jsTrimStart content)).1 ++ newHeader ++
            '\n' :: dropUpTo2NL
              (((jsTrimStart (splitShebang (jsTrimStart content)).2).drop
                cs.length).drop (endIdx + ce.length))
        | none =>
          (splitShebang (jsTrimStart content)).1 ++ newHeader ++
            '\n' :: '\n' :: (splitShebang (jsTrimStart content)).2
      else
        (splitShebang (jsTrimStart content)).1 ++ newHeader ++
          '\n' :: '\n' :: (splitShebang (jsTrimStart content)).2) := rfl

theorem replaceOrInsertHeader_shape (content cs ce H : Str) :
    ∃ tail, replaceOrInsertHeader content cs ce H =
      (splitShebang (jsTrimStart content)).1 ++ H ++ tail ∧
      tail ⊆ '\n' :: content := by
  have hsub : jsTrimStart (splitShebang (jsTrimStart content)).2 ⊆ content :=
    fun x hx =>
      jsTrimStart_subset content (splitShebang_snd_subset (jsTrimStart content)
        (jsTrimStart_subset ((splitShebang (jsTrimStart content)).2) hx))
  by_cases h1 : cs.isPrefixOf (jsTrimStart (splitShebang (jsTrimStart content)).2)
  · cases h2 : indexOfSub ce
        ((jsTrimStart (splitShebang (jsTrimStart content)).2).drop cs.length) with
    | some i =>
      refine ⟨'\n' :: dropUpTo2NL
        (((jsTrimStart (splitShebang (jsTrimStart content)).2).drop
          cs.length).drop (i + ce.length)), ?_, ?_⟩
      · rw [replaceOrInsertHeader_eq, if_pos h1]
        simp only [h2]
      · rw [List.cons_subset]
        refine ⟨List.mem_cons_self _ _, fun x hx => List.mem_cons_of_mem _ ?_⟩
        exact hsub (List.drop_subset _ _ (List.drop_subset _ _
          (dropUpTo2NL_subset _ hx)))
    | none =>
      refine ⟨'\n' :: '\n' :: (splitShebang (jsTrimStart content)).2, ?_, ?_⟩
      · rw [replaceOrInsertHeader_eq, if_pos h1]
        simp only [h2]
      · rw [List.cons_subset, List.cons_subset]
        exact ⟨List.mem_cons_self _ _, List.mem_cons_self _ _,
          fun x hx => List.mem_cons_of_mem _
            (jsTrimStart_subset content
              (splitShebang_snd_subset (jsTrimStart content) hx))⟩
  · refine ⟨'\n' :: '\n' :: (splitShebang (jsTrimStart content)).2, ?_, ?_⟩
    · rw [replaceOrInsertHeader_eq, if_neg h1]
    · rw [List.cons_subset, List.cons_subset]
      exact ⟨List.mem_cons_self _ _, List.mem_cons_self _ _,
        fun x hx => List.mem_cons_of_mem _
          (jsTrimStart_subset content
            (splitShebang_snd_subset (jsTrimStart content) hx))⟩

theorem extractHeaderContent_written
    (sheb cs ce s tail : Str)
    (hsheb : sheb = [] ∨ ∃ body, sheb = body ++ ['\n'] ∧
      ("#!".data).isPrefixOf body ∧ '\n' ∉ body)
    (hnocr : '\r' ∉ sheb ++ (cs ++ '\n' :: ((s ++ '\n' :: ce) ++ tail)))
    (hcs0 : cs ≠ []) (hcsT : jsTrimStart cs = cs)
    (hcsSh : ¬ ("#!".data).isPrefixOf cs)
    (hsfix : jsTrim s = s) (hs0 : s ≠ [])
    (hmark : ∀ k, k < s.length + 2 →
      ¬ ce.isPrefixOf ((('\n' :: s) ++ '\n' :: ce).drop k)) :
    extractHeaderContent (sheb ++ (cs ++ '\n' :: ((s ++ '\n' :: ce) ++ tail)))
      cs ce none = some s := by
  have hnorm := normalizeNewlines_eq_self hnocr
  have hloc : locAfterShebang
      (sheb ++ (cs ++ '\n' :: ((s ++ '\n' :: ce) ++ tail))) =
      cs ++ '\n' :: ((s ++ '\n' :: ce) ++ tail) := by
    rcases hsheb with h0 | ⟨body, hb, hbp, hbn⟩
    · rw [h0, List.nil_append]
      unfold locAfterShebang
      rw [if_neg (shebang_not_prefix_header hcs0 hcsSh _)]
    · rw [hb]
      exact locAfterShebang_shebang body _ hbp hbn
  have htrim : jsTrimStart (cs ++ '\n' :: ((s ++ '\n' :: ce) ++ tail)) =
      cs ++ '\n' :: ((s ++ '\n' :: ce) ++ tail) :=
    jsTrimStart_append_left hcsT hcs0 _
  have hdef : extractHeaderContent
      (sheb ++ (cs ++ '\n' :: ((s ++ '\n' :: ce) ++ tail))) cs ce none =
      (if cs.isPrefixOf (jsTrimStart (locAfterShebang (normalizeNewlines
          (sheb ++ (cs ++ '\n' :: ((s ++ '\n' :: ce) ++ tail)))))) then
        match indexOfSub ce ((jsTrimStart (locAfterShebang (normalizeNewlines
            (sheb ++ (cs ++ '\n' :: ((s ++ '\n' :: ce) ++ tail)))))).drop
              cs.length) with
        | some endIndex =>
          if (jsTrim (stripRegion none (((jsTrimStart (locAfterShebang
              (normalizeNewlines (sheb ++ (cs ++ '\n' ::
                ((s ++ '\n' :: ce) ++ tail)))))).drop cs.length).take
                  endIndex))).length > 0
          then some (jsTrim (stripRegion none (((jsTrimStart (locAfterShebang
              (normalizeNewlines (sheb ++ (cs ++ '\n' ::
                ((s ++ '\n' :: ce) ++ tail)))))).drop cs.length).take
                  endIndex)))
          else none
        | none => none
      else none) := rfl
  rw [hdef, hnorm, hloc, htrim]
  rw [if_pos (isPrefixOf_self_append cs _)]
  have hdrop : (cs ++ '\n' :: ((s ++ '\n' :: ce) ++ tail)).drop cs.length =
      '\n' :: ((s ++ '\n' :: ce) ++ tail) := List.drop_left cs _
  rw [hdrop]
  have hshape : ('\n' :: ((s ++ '\n' :: ce) ++ tail) : Str) =
      ('\n' :: s) ++ '\n' :: (ce ++ tail) := by simp
  rw [hshape]
  have hidx := indexOf_written_marker s ce tail hmark
  simp only [hidx]
  have htake : (('\n' :: s) ++ '\n' :: (ce ++ tail)).take (s.length + 2) =
      '\n' :: (s ++ ['\n']) := by
    have hA : ('\n' :: s) ++ '\n' :: (ce ++ tail) =
        (('\n' :: s) ++ ['\n']) ++ (ce ++ tail) := by simp
    rw [hA]
    have hlen : (('\n' :: s) ++ ['\n']).length = s.length + 2 := by simp
    rw [← hlen, List.take_left]
    simp
  rw [htake]
  rw [show stripRegion none ('\n' :: (s ++ ['\n'])) = '\n' :: (s ++ ['\n'])
    from rfl]
  rw [jsTrim_wrap hsfix hs0]
  rw [if_pos (by
    have := List.length_pos.mpr hs0
    omega)]

theorem optArrayEntry_eq_present {key : Str} {v : Option (List Str)}
    (h : v ≠ some []) : optArrayEntry key v = presentArrayEntry key v := by
  unfold optArrayEntry presentArrayEntry
  cases v with
  | none => rfl
  | some l =>
    cases l with
    | nil => exact absurd rfl h
    | cons a t => simp

theorem optTruthyStrEntry_eq_present {key : Str} {v : Option Str}
    (h : v ≠ some []) : optTruthyStrEntry key v = presentStrEntry key v := by
  unfold optTruthyStrEntry presentStrEntry
  cases v with
  | none => rfl
  | some l =>
    cases l with
    | nil => exact absurd rfl h
    | cons a t => simp

theorem orderedData_eq_docToFullMap (d : CfmWriteInput)
    (hdep : d.depends_on ≠ some []) (hwtl : d.when_to_load ≠ some [])
    (hse : d.side_effects ≠ some []) (hdom : d.domain ≠ some [])
    (hai : d.ai_notes ≠ some []) : orderedData d = docToFullMap d := by
  unfold orderedData docToFullMap
  rw [optArrayEntry_eq_present hdep, optTruthyStrEntry_eq_present hwtl,
    optArrayEntry_eq_present hse, optTruthyStrEntry_eq_present hdom,
    optTruthyStrEntry_eq_present hai]

/-- Claim C2 (amended): writing a Header Document with `writeFrontmatter`
and locating+parsing it back with `extractFrontmatter` — whose read stage
is `readFileHead`, the first `MAX_READ_BYTES = 4096` bytes of the file —
yields the document field-for-field, for documents whose present
optional arrays and optional strings are non-empty (the writer drops
empty ones, and its input has no `cfm_version` field at all) and whose
shebang line plus serialized header fit inside the read window, for a
block-comment rule, with the external YAML serializer/parser assumed
inverse on the document and its output free of carriage returns and of
the end marker.  The target file's prior content is arbitrary: any
existing header is replaced and a shebang is preserved. -/
theorem claim_roundtrip_amended
    (d : CfmWriteInput) (rule : LanguageRule) (name path content : Str)
    (stringifyYaml : List (Str × Yaml) → Str)
    (parseYaml : Str → Except Str Yaml)
    (hlp : rule.line_prefix = none)
    (hdep : d.depends_on ≠ some []) (hwtl : d.when_to_load ≠ some [])
    (hse : d.side_effects ≠ some []) (hdom : d.domain ≠ some [])
    (hai : d.ai_notes ≠ some [])
    (hs0 : jsTrim (stringifyYaml (orderedData d)) ≠ [])
    (hscr : '\r' ∉ jsTrim (stringifyYaml (orderedData d)))
    (hcs0 : rule.comment_start ≠ [])
    (hcsT : jsTrimStart rule.comment_start = rule.comment_start)
    (hcsSh : ¬ ("#!".data).isPrefixOf rule.comment_start)
    (hcscr : '\r' ∉ rule.comment_start) (hcecr : '\r' ∉ rule.comment_end)
    (hmark : ∀ k, k < (jsTrim (stringifyYaml (orderedData d))).length + 2 →
      ¬ rule.comment_end.isPrefixOf
        ((('\n' :: jsTrim (stringifyYaml (orderedData d))) ++
          '\n' :: rule.comment_end).drop k))
    (hparse : parseYaml (jsTrim (stringifyYaml (orderedData d))) =
      .ok (.ymap (orderedData d)))
    (hsize : ((splitShebang (jsTrimStart (normalizeNewlines content))).1 ++
      (rule.comment_start ++ '\n' ::
        (jsTrim (stringifyYaml (orderedData d)) ++ '\n' ::
          rule.comment_end))).length ≤ MAX_READ_BYTES) :
    (extractFrontmatter (some ⟨name, rule⟩)
        (readFileHead (writeFrontmatterContent rule d stringifyYaml content))
        parseYaml path).frontmatter = some (.ymap (docToFullMap d)) := by
  have hW : writeFrontmatterContent rule d stringifyYaml content =
      replaceOrInsertHeader (normalizeNewlines content) rule.comment_start
        rule.comment_end
        (rule.comment_start ++ '\n' ::
          (jsTrim (stringifyYaml (orderedData d)) ++ '\n' ::
            rule.comment_end)) := by
    simp only [writeFrontmatterContent, buildHeader, hlp]
  rcases replaceOrInsertHeader_shape (normalizeNewlines content)
      rule.comment_start rule.comment_end
      (rule.comment_start ++ '\n' ::
        (jsTrim (stringifyYaml (orderedData d)) ++ '\n' ::
          rule.comment_end)) with ⟨tail, htail, hsub⟩
  have hNn : '\r' ∉ normalizeNewlines content := normalizeNewlines_no_cr content
  have hshebn : '\r' ∉ (splitShebang (jsTrimStart
      (normalizeNewlines content))).1 := fun hm =>
    hNn (jsTrimStart_subset _ (splitShebang_fst_subset _ hm))
  have htail2n : '\r' ∉ tail.take (MAX_READ_BYTES -
      ((splitShebang (jsTrimStart (normalizeNewlines content))).1 ++
        (rule.comment_start ++ '\n' ::
          (jsTrim (stringifyYaml (orderedData d)) ++ '\n' ::
            rule.comment_end))).length) := by
    intro hm
    rcases List.mem_cons.mp (hsub (List.take_subset _ _ hm)) with h | h
    · exact absurd h (by decide)
    · exact hNn h
  have hnocr : '\r' ∉ (splitShebang (jsTrimStart (normalizeNewlines
      content))).1 ++ (rule.comment_start ++ '\n' ::
        ((jsTrim (stringifyYaml (orderedData d)) ++ '\n' ::
          rule.comment_end) ++ tail.take (MAX_READ_BYTES -
            ((splitShebang (jsTrimStart (normalizeNewlines content))).1 ++
              (rule.comment_start ++ '\n' ::
                (jsTrim (stringifyYaml (orderedData d)) ++ '\n' ::
                  rule.comment_end))).length))) := by
    intro hm
    simp only [List.mem_append, List.mem_cons] at hm
    rcases hm with h | h | h | (h | h | h) | h
    · exact hshebn h
    · exact hcscr h
    · exact absurd h (by decide)
    · exact hscr h
    · exact absurd h (by decide)
    · exact hcecr h
    · exact htail2n h
  have hext := extractHeaderContent_written
    (splitShebang (jsTrimStart (normalizeNewlines content))).1
    rule.comment_start rule.comment_end
    (jsTrim (stringifyYaml (orderedData d)))
    (tail.take (MAX_READ_BYTES -
      ((splitShebang (jsTrimStart (normalizeNewlines content))).1 ++
        (rule.comment_start ++ '\n' ::
          (jsTrim (stringifyYaml (orderedData d)) ++ '\n' ::
            rule.comment_end))).length))
    (splitShebang_shape _) hnocr hcs0 hcsT hcsSh
    (jsTrim_idem (stringifyYaml (orderedData d))) hs0 hmark
  have htrunc : readFileHead
      ((splitShebang (jsTrimStart (normalizeNewlines content))).1 ++
        (rule.comment_start ++ '\n' ::
          (jsTrim (stringifyYaml (orderedData d)) ++ '\n' ::
            rule.comment_end)) ++ tail) =
      (splitShebang (jsTrimStart (normalizeNewlines content))).1 ++
        (rule.comment_start ++ '\n' ::
          (jsTrim (stringifyYaml (orderedData d)) ++ '\n' ::
            rule.comment_end)) ++ tail.take (MAX_READ_BYTES -
              ((splitShebang (jsTrimStart (normalizeNewlines content))).1 ++
                (rule.comment_start ++ '\n' ::
                  (jsTrim (stringifyYaml (orderedData d)) ++ '\n' ::
                    rule.comment_end))).length) := by
    unfold readFileHead
    rw [List.take_append_eq_append_take, List.take_of_length_le hsize]
  have hassoc : (splitShebang (jsTrimStart (normalizeNewlines content))).1 ++
      (rule.comment_start ++ '\n' ::
        (jsTrim (stringifyYaml (orderedData d)) ++ '\n' ::
          rule.comment_end)) ++ tail.take (MAX_READ_BYTES -
            ((splitShebang (jsTrimStart (normalizeNewlines content))).1 ++
              (rule.comment_start ++ '\n' ::
                (jsTrim (stringifyYaml (orderedData d)) ++ '\n' ::
                  rule.comment_end))).length) =
      (splitShebang (jsTrimStart (normalizeNewlines content))).1 ++
      (rule.comment_start ++ '\n' ::
        ((jsTrim (stringifyYaml (orderedData d)) ++ '\n' ::
          rule.comment_end) ++ tail.take (MAX_READ_BYTES -
            ((splitShebang (jsTrimStart (normalizeNewlines content))).1 ++
              (rule.comment_start ++ '\n' ::
                (jsTrim (stringifyYaml (orderedData d)) ++ '\n' ::
                  rule.comment_end))).length))) := by
    simp
  rw [hW, htail, htrunc, hassoc]
  simp only [extractFrontmatter]
  rw [show (Language.mk name rule).rule.line_prefix = rule.line_prefix from rfl,
    hlp]
  simp only [hext, hparse]
  rw [if_neg (by simp [jsTruthy, typeofIsObject])]
  rw [orderedData_eq_docToFullMap d hdep hwtl hse hdom hai]

/-- A full Header Document with every optional field present and
non-empty, used to exercise the round-trip. -/
def rtDoc : CfmWriteInput :=
  { intent := ("i").data, role := ("svc").data,
    exports := [("a: desc").data, ("b").data],
    depends_on := some [("x.ts").data],
    when_to_load := some ("w").data,
    mutates_state := some false,
    side_effects := some [("io").data],
    domain := some ("core").data,
    ai_notes := some ("n").data }

/-- A Header Document carrying a present-but-empty optional array. -/
def rtDocEmptyDep : CfmWriteInput :=
  { intent := ("i").data, role := ("r").data, exports := [("e").data],
    depends_on := some [] }

set_option maxRecDepth 100000 in
/-- Claim C2 witness: the round-trip at `rtDoc` through the concrete
block-style serializer/parser pair, on a target file that has a shebang
and an existing header; the shebang plus serialized header fit well
inside the 4096-byte read window. -/
theorem claim_roundtrip_amended_witness :
    (extractFrontmatter (some ⟨("javascript").data, jsRule⟩)
        (readFileHead (writeFrontmatterContent jsRule rtDoc miniStringify
          (("#!/usr/bin/env node\n/*---\nold: 1\n---*/\ncode();\n").data)))
        miniParse (("f.js").data)).frontmatter =
      some (.ymap (docToFullMap rtDoc)) := by
  exact claim_roundtrip_amended rtDoc jsRule (("javascript").data)
    (("f.js").data)
    (("#!/usr/bin/env node\n/*---\nold: 1\n---*/\ncode();\n").data)
    miniStringify miniParse rfl (by decide) (by decide) (by decide)
    (by decide) (by decide) (by decide) (by decide) (by decide) (by decide)
    (by decide) (by decide) (by decide) (by decide) rfl (by decide)

set_option maxRecDepth 100000 in
/-- Claim C2 counterexample: for a document whose `depends_on` is the
*empty* array, the writer drops the field (`write.ts` line 483 requires
`length > 0`), so the read-back document has no `depends_on` key at all —
it is not field-for-field equal to the original, contradicting the
claim's "including empty optional arrays". -/
theorem claim_roundtrip_counterexample :
    (extractFrontmatter (some ⟨("javascript").data, jsRule⟩)
        (readFileHead
          (writeFrontmatterContent jsRule rtDocEmptyDep miniStringify []))
        miniParse (("f.js").data)).frontmatter =
      some (.ymap (orderedData rtDocEmptyDep)) ∧
    jsGetProp (.ymap (orderedData rtDocEmptyDep)) (("depends_on").data) =
      none ∧
    jsGetProp (.ymap (docToFullMap rtDocEmptyDep)) (("depends_on").data) =
      some (.ylist []) ∧
    (extractFrontmatter (some ⟨("javascript").data, jsRule⟩)
        (readFileHead
          (writeFrontmatterContent jsRule rtDocEmptyDep miniStringify []))
        miniParse (("f.js").data)).frontmatter ≠
      some (.ymap (docToFullMap rtDocEmptyDep)) := by
  refine ⟨rfl, rfl, rfl, ?_⟩
  intro h
  have h0 : (some (Yaml.ymap (orderedData rtDocEmptyDep)) : Option Yaml) =
      some (.ymap (docToFullMap rtDocEmptyDep)) := by
    rw [show (some (Yaml.ymap (orderedData rtDocEmptyDep)) : Option Yaml) =
      (extractFrontmatter (some ⟨("javascript").data, jsRule⟩)
        (readFileHead
          (writeFrontmatterContent jsRule rtDocEmptyDep miniStringify []))
        miniParse (("f.js").data)).frontmatter from rfl]
    exact h
  injection h0 with h1
  injection h1 with h2
  have h4 : (none : Option Yaml) = some (Yaml.ylist []) := by
    calc (none : Option Yaml)
        = ((orderedData rtDocEmptyDep).find?
            (fun e => decide (e.1 = ("depends_on").data))).map (·.2) := rfl
      _ = ((docToFullMap rtDocEmptyDep).find?
            (fun e => decide (e.1 = ("depends_on").data))).map (·.2) := by
          rw [h2]
      _ = some (.ylist []) := rfl
  exact Option.noConfusion h4

/-- Claim C3 witness: name derivation at a colon entry, and the
equal-sets case — the header declares `["a: desc", " b "]` (names
`a`, `b`) and the code exports `{a, b}`, so `missing` and `stale` are
empty and the file is valid. -/
theorem claim_drift_names_amended_witness :
    cfmDeclaredName (("a: desc").data) = ("a").data ∧
    (validateFrontmatter (("f.ts").data)
        { file := ("f.ts").data, language := some ("typescript").data,
          frontmatter := some (.ymap [(("exports").data,
            .ylist ([("a: desc").data, (" b ").data].map .ystr))]),
          warnings := [] }
        (.ok [("a").data, ("b").data])).missing = [] ∧
    (validateFrontmatter (("f.ts").data)
        { file := ("f.ts").data, language := some ("typescript").data,
          frontmatter := some (.ymap [(("exports").data,
            .ylist ([("a: desc").data, (" b ").data].map .ystr))]),
          warnings := [] }
        (.ok [("a").data, ("b").data])).stale = [] ∧
    (validateFrontmatter (("f.ts").data)
        { file := ("f.ts").data, language := some ("typescript").data,
          frontmatter := some (.ymap [(("exports").data,
            .ylist ([("a: desc").data, (" b ").data].map .ystr))]),
          warnings := [] }
        (.ok [("a").data, ("b").data])).isValid = true := by
  have h := claim_drift_names_amended [("a: desc").data, (" b ").data]
    [("a").data, ("b").data]
  have heq := h.2.2.2.2.2.2 (fun x => Iff.rfl)
  exact ⟨(h.1 (("a: desc").data) 1 (by decide)).trans (by decide),
    heq.1, heq.2.1, heq.2.2⟩

/-- Claim C9 witness: the tree of `module.exports = {}` contributes the
sentinel name via the assignment rule. -/
theorem claim_commonjs_assignment_rule_witness :
    ("module.exports").data ∈ collectAssignExports
      (.assignE (.propAccessE (.identE (("module").data)) (("exports").data))
        (.otherNode .nil)) := by
  exact (claim_commonjs_assignment_rule
    (.assignE (.propAccessE (.identE (("module").data)) (("exports").data))
      (.otherNode .nil)) (("module.exports").data)).mpr
    ⟨_, _, SubNode.refl _, Or.inl ⟨rfl, rfl⟩⟩

end CodeFrontmatter
